import Mathlib

/-!
Verification of the extraction/normalization pipeline implemented in
`scripts/scrape.py`.  The Python source is shallowly embedded: HTML documents
(as produced by BeautifulSoup) are modelled by an explicit node tree, the
regular expressions used by the source are translated into direct scanners
over character lists, the network is modelled by explicit outcome oracles,
and every function keeps the name of the Python function it embeds.

Modelling conventions, used throughout:
* Python `str` is `String`; scanners work on `String.data : List Char`.
* Python's `\s` / `str.strip()` are modelled over the ASCII whitespace
  characters; the inputs in scope contain no exotic Unicode whitespace.
* Python's `\d` is modelled by `Char.isDigit` (ASCII digits), which is what
  the scraped pages contain.
* Python `dict` (insertion ordered) is an association list with unique keys,
  built only through `dictAssign` / `dictSetdefault` below.
* Python `float` values flow through this program only from a parsed text
  into an f-string; they are modelled by their canonical decimal repr
  (e.g. `float("4.50")` is modelled as the string `"4.5"`, `float("3")` as
  `"3.0"`).  All values arising here are plain short decimals, for which
  this coincides with CPython's parse/repr round trip.
-/

/-- The six ASCII whitespace characters matched by Python's `\s` on the
inputs in scope. -/
def isPyWs (c : Char) : Bool :=
  c = ' ' || c = '\t' || c = '\n' || c = '\r' || c = '\x0b' || c = '\x0c'

/-- Replace every maximal whitespace run by a single space: the effect of
`re.sub(r"\s+", " ", s)`.  The boolean records whether the previous
character belonged to a whitespace run. -/
def subWsGo : Bool → List Char → List Char
  | _, [] => []
  | inRun, c :: rest =>
    if isPyWs c then
      if inRun then subWsGo true rest else ' ' :: subWsGo true rest
    else c :: subWsGo false rest

/-- Python `str.strip()` (whitespace at both ends). -/
def pyStrip (s : String) : String :=
  String.mk (((s.data.dropWhile isPyWs).reverse.dropWhile isPyWs).reverse)

/-- `clean_text` from the source: collapse whitespace runs to a single
space, then strip.  Python returns `""` for falsy input, which the
computation below also does on `""`. -/
def clean_text (s : String) : String :=
  pyStrip (String.mk (subWsGo false s.data))

def digitVal (c : Char) : Nat := c.toNat - 48

def digitsToNat (ds : List Char) : Nat :=
  ds.foldl (fun a c => 10 * a + digitVal c) 0

/-- First maximal digit run of a character list, as used by `re.search(r"\d+", s)`. -/
def firstDigitRun : List Char → Option (List Char)
  | [] => none
  | c :: rest =>
    if c.isDigit then some (c :: rest.takeWhile Char.isDigit)
    else firstDigitRun rest

/-- `to_int` from the source: `None` for empty input, otherwise the first
digit run after removing every comma, as a number. -/
def to_int (s : String) : Option Nat :=
  if s = "" then none
  else (firstDigitRun (s.data.filter (fun c => c ≠ ','))).map digitsToNat

/-- Match a literal character list at the head, returning the rest. -/
def stripLit : List Char → List Char → Option (List Char)
  | [], cs => some cs
  | _ :: _, [] => none
  | l :: ls, c :: cs => if l = c then stripLit ls cs else none

/-- Scanner for `re.search(r"/clinics/(\d+)", u)`: at each position try the
literal `"/clinics/"` followed by at least one digit; the group is the
maximal digit run.  Like `re.search`, a failed position advances by one
character. -/
def clinicIdScan : List Char → Option (List Char)
  | [] => none
  | c :: rest =>
    match stripLit "/clinics/".data (c :: rest) with
    | some after =>
      match after with
      | d :: _ =>
        if d.isDigit then some (after.takeWhile Char.isDigit)
        else clinicIdScan rest
      | [] => clinicIdScan rest
    | none => clinicIdScan rest

/-- `get_clinic_id_from_url` from the source. -/
def get_clinic_id_from_url (u : String) : String :=
  match clinicIdScan u.data with
  | some ds => String.mk ds
  | none => ""

/-- Python dict assignment `d[k] = v`: update in place if the key exists
(keeping its position), else append. -/
def dictAssign (d : List (String × String)) (k v : String) :
    List (String × String) :=
  if (d.lookup k).isSome then
    d.map (fun p => if p.1 = k then (k, v) else p)
  else d ++ [(k, v)]

/-- Python `d.setdefault(k, v)`: keep an existing entry, else append. -/
def dictSetdefault (d : List (String × String)) (k v : String) :
    List (String × String) :=
  if (d.lookup k).isSome then d else d ++ [(k, v)]

/-- First-match association lookup (Python `d[k]` / `k in d`). -/
def dictLookup (d : List (String × String)) (k : String) : Option String :=
  d.lookup k

/-- Split on whitespace runs, dropping empty pieces: Python `str.split()`,
used for the `class` attribute. -/
def wsSplitGo (cur : List Char) : List Char → List String
  | [] => if cur = [] then [] else [String.mk cur.reverse]
  | c :: rest =>
    if isPyWs c then
      if cur = [] then wsSplitGo [] rest
      else String.mk cur.reverse :: wsSplitGo [] rest
    else wsSplitGo (c :: cur) rest

def wsSplit (s : String) : List String := wsSplitGo [] s.data

mutual
/-- A parsed HTML node, the shallow embedding of a BeautifulSoup tag tree. -/
inductive Node where
  | elem (tag : String) (attrs : List (String × String)) (children : NodeList) : Node
  | text (s : String) : Node
/-- Children lists get their own inductive so that all tree recursions are
structural (and hence reduce inside the kernel). -/
inductive NodeList where
  | nil : NodeList
  | cons (n : Node) (ns : NodeList) : NodeList
end

def NodeList.ofList : List Node → NodeList
  | [] => .nil
  | n :: ns => .cons n (NodeList.ofList ns)

mutual
/-- All text-node strings of a subtree in document order (BeautifulSoup's
`_all_strings`). -/
def Node.texts : Node → List String
  | .text s => [s]
  | .elem _ _ cs => NodeList.texts cs
def NodeList.texts : NodeList → List String
  | .nil => []
  | .cons n ns => Node.texts n ++ NodeList.texts ns
end

/-- BeautifulSoup `get_text(sep)`: all subtree strings joined by `sep`. -/
def Node.getText (n : Node) (sep : String) : String :=
  String.intercalate sep n.texts

/-- BeautifulSoup `tag.get(k)`. -/
def Node.attr? : Node → String → Option String
  | .elem _ attrs _, k => attrs.lookup k
  | .text _, _ => none

/-- CSS classes of an element: the whitespace-split `class` attribute. -/
def Node.classes (n : Node) : List String :=
  wsSplit ((n.attr? "class").getD "")

/-- One compound CSS selector: optional tag name, required classes, and
required attributes (present, or present with a given value). -/
structure SSel where
  tag : Option String
  cls : List String
  attrs : List (String × Option String)

/-- The selector shapes used by the source: a compound selector, a
descendant combinator `a q`, or a child combinator `p > q`. -/
inductive Sel where
  | single (q : SSel)
  | descend (a q : SSel)
  | childOf (p q : SSel)

def matchesSimple (n : Node) (q : SSel) : Bool :=
  match n with
  | .text _ => false
  | .elem t _ _ =>
    (match q.tag with | none => true | some tq => tq = t)
    && q.cls.all (fun c => (Node.classes n).contains c)
    && q.attrs.all (fun p =>
        match n.attr? p.1, p.2 with
        | some v, some vq => v = vq
        | some _, none => true
        | none, _ => false)

/-- Selector match for a node given its ancestor chain, nearest first. -/
def matchesSel (anc : List Node) (n : Node) : Sel → Bool
  | .single q => matchesSimple n q
  | .descend a q => matchesSimple n q && anc.any (fun m => matchesSimple m a)
  | .childOf p q =>
    matchesSimple n q &&
      (match anc with | [] => false | m :: _ => matchesSimple m p)

mutual
/-- Matches in the strict subtree of `n`, in document order; `anc` is the
ancestor chain for `n`'s children. -/
def selIn (sel : Sel) (anc : List Node) : Node → List Node
  | .text _ => []
  | .elem t as cs => selList sel (Node.elem t as cs :: anc) cs
def selList (sel : Sel) (anc : List Node) : NodeList → List Node
  | .nil => []
  | .cons c rest =>
    (if matchesSel anc c sel then [c] else []) ++ selIn sel anc c
      ++ selList sel anc rest
end

/-- BeautifulSoup `scope.select(sel)`: strict descendants of the scope
matching the selector, in document order.  As with soupsieve, the scope
element itself may serve as the ancestor part of a combinator. -/
def Node.select (n : Node) (sel : Sel) : List Node := selIn sel [] n

/-- BeautifulSoup `scope.select_one(sel)`. -/
def Node.selectOne (n : Node) (sel : Sel) : Option Node :=
  (n.select sel).head?

/-- BeautifulSoup `scope.find_all(tag)`. -/
def findAllTag (n : Node) (tag : String) : List Node :=
  n.select (.single ⟨some tag, [], []⟩)

/-- BeautifulSoup `scope.find(tag)`. -/
def findFirstTag (n : Node) (tag : String) : Option Node :=
  (findAllTag n tag).head?

/-- BeautifulSoup `tag.string`: the single text child, if the element has
exactly one child and it is a text node. -/
def Node.string? : Node → Option String
  | .elem _ _ (.cons (.text s) .nil) => some s
  | _ => none

/-! ### Scanners for the regular expressions of the source -/

/-- Match `\d{1,2}:\d{2}` at the head of a character list, returning the
matched characters and the rest.  The leading `{1,2}` is greedy but
deterministic: a position cannot admit both the one- and the two-digit
variant, since no character is both a digit and `':'`. -/
def timeToken? : List Char → Option (List Char × List Char)
  | a :: b :: c :: d :: e :: rest =>
    if a.isDigit && b.isDigit && c = ':' && d.isDigit && e.isDigit then
      some ([a, b, c, d, e], rest)
    else if a.isDigit && b = ':' && c.isDigit && d.isDigit then
      some ([a, b, c, d], e :: rest)
    else none
  | [a, b, c, d] =>
    if a.isDigit && b = ':' && c.isDigit && d.isDigit then
      some ([a, b, c, d], [])
    else none
  | _ => none

/-- The shape of a matched `\d{1,2}:\d{2}` token. -/
def isHMM : List Char → Bool
  | [a, b, c, d] => a.isDigit && b = ':' && c.isDigit && d.isDigit
  | [a, b, c, d, e] => a.isDigit && b.isDigit && c = ':' && d.isDigit && e.isDigit
  | _ => false

/-- The lazy tail `.*?(\d{1,2}:\d{2})` of `TIME_RANGE_RE`: extend the gap one
character at a time (never across `'\n'`, which `.` does not match) until the
closing token matches. -/
def findClose : List Char → Option (List Char)
  | [] => none
  | c :: rest =>
    match timeToken? (c :: rest) with
    | some (tok, _) => some tok
    | none => if c = '\n' then none else findClose rest

/-- `re.search` for `TIME_RANGE_RE`: try each start position left to right;
at a position where the opening token matches but no closing token is
reachable, the search resumes one character further, exactly as the regex
engine does. -/
def searchPair : List Char → Option (List Char × List Char)
  | [] => none
  | c :: rest =>
    match timeToken? (c :: rest) with
    | some (tok, after) =>
      match findClose after with
      | some ctok => some (tok, ctok)
      | none => searchPair rest
    | none => searchPair rest

/-- `split_open_close` from the source. -/
def split_open_close (raw : String) : String × String :=
  if raw = "" then ("", "")
  else
    match searchPair raw.data with
    | none => ("", "")
    | some (o, c) => (String.mk o, String.mk c)

/-- Scanner for `re.search(r"¥\s*([\d,]+)", s)` followed by
`int(group.replace(",", ""))` under `try/except`: at a `'¥'`, skip
whitespace greedily, take the maximal run of digits and commas; an empty
run means no match at this position and the search continues one character
further, while a nonempty all-comma run makes `int("")` raise, which the
source swallows leaving the price `None`. -/
def yenScan : List Char → Option Nat
  | [] => none
  | c :: rest =>
    if c = '¥' then
      let run := (rest.dropWhile isPyWs).takeWhile (fun d => d.isDigit || d = ',')
      if run = [] then yenScan rest
      else
        let ds := run.filter Char.isDigit
        if ds = [] then none else some (digitsToNat ds)
    else yenScan rest

/-- The price parse inlined in `extract_menus_from_scope` (lines 173-179 of
the source), factored out verbatim. -/
def parse_price (s : String) : Option Nat := yenScan s.data

/-- Canonical decimal representation of a parsed Python float literal:
`float(s)` followed by `repr`, restricted to plain (exponent-free) decimal
literals, which is the only shape the scraped rating texts take.  Returns
`none` where `float(s)` raises `ValueError`. -/
def floatCanon? (s : String) : Option String :=
  let t := (pyStrip s).data
  let (sign, t) : String × List Char :=
    match t with
    | '-' :: r => ("-", r)
    | '+' :: r => ("", r)
    | r => ("", r)
  let intPart := t.takeWhile Char.isDigit
  let t2 := t.dropWhile Char.isDigit
  match t2 with
  | [] =>
    if intPart = [] then none
    else some (sign ++ String.mk (canonInt intPart) ++ ".0")
  | '.' :: r =>
    let frac := r.takeWhile Char.isDigit
    if r.dropWhile Char.isDigit ≠ [] then none
    else if intPart = [] && frac = [] then none
    else
      let fr := (frac.reverse.dropWhile (fun c => c = '0')).reverse
      some (sign ++ String.mk (canonInt intPart) ++ "." ++
        (if fr = [] then "0" else String.mk fr))
  | _ => none
where
  canonInt (ds : List Char) : List Char :=
    let d := ds.dropWhile (fun c => c = '0')
    if d = [] then ['0'] else d

/-! ### URL resolution helpers -/

/-- `True` iff the string starts with `http://` or `https://`. -/
def startsHttp (s : String) : Bool :=
  (stripLit "http://".data s.data).isSome || (stripLit "https://".data s.data).isSome

/-- Split `scheme://rest` at the first `"://"`. -/
def schemeSplitAt : List Char → Option (List Char × List Char)
  | [] => none
  | ':' :: '/' :: '/' :: r => some ([], r)
  | c :: r => (schemeSplitAt r).map (fun p => (c :: p.1, p.2))

/-- `urllib.parse.urljoin`, modelled on the URL shapes this program emits:
an absolute reference wins, an empty reference returns the base, a
root-relative reference is resolved against the base's origin, any other
reference against the base's last path directory.  Dot-segment, query and
fragment normalization do not arise here and are not modelled. -/
def urljoin (base rel : String) : String :=
  if rel = "" then base
  else if (schemeSplitAt rel.data).isSome then rel
  else
    match schemeSplitAt base.data with
    | none => rel
    | some (scheme, hostPath) =>
      if (stripLit "//".data rel.data).isSome then String.mk scheme ++ ":" ++ rel
      else if (stripLit "/".data rel.data).isSome then
        String.mk scheme ++ "://" ++ String.mk (hostPath.takeWhile (fun c => c ≠ '/')) ++ rel
      else
        let host := hostPath.takeWhile (fun c => c ≠ '/')
        let path := hostPath.dropWhile (fun c => c ≠ '/')
        let dir := (path.reverse.dropWhile (fun c => c ≠ '/')).reverse
        String.mk scheme ++ "://" ++ String.mk host ++
          (if dir = [] then "/" else String.mk dir) ++ rel

/-- `to_abs_url` from the source. -/
def to_abs_url (maybe_url page_url : String) : String :=
  if maybe_url = "" then ""
  else if startsHttp maybe_url then maybe_url
  else if (stripLit "//".data maybe_url.data).isSome then "https:" ++ maybe_url
  else urljoin page_url maybe_url

/-- First URL token of a `srcset` attribute:
`srcset.split(",")[0].strip().split(" ")[0]`. -/
def srcsetFirst (srcset : String) : String :=
  String.mk (((pyStrip (String.mk (srcset.data.takeWhile (fun c => c ≠ ',')))).data).takeWhile
    (fun c => c ≠ ' '))

/-- `pick_img_src` from the source: prefer `src`, else the first `srcset`
URL, else the empty string (also for a missing tag). -/
def pick_img_src (img_tag : Option Node) : String :=
  match img_tag with
  | none => ""
  | some t =>
    let src := pyStrip ((t.attr? "src").getD "")
    if src ≠ "" then src
    else
      let srcset := pyStrip ((t.attr? "srcset").getD "")
      if srcset ≠ "" then srcsetFirst srcset else ""

/-! ### Hours extraction -/

/-- `WEEK_DAYS` from the source. -/
def WEEK_DAYS : List Char := ['月', '火', '水', '木', '金', '土', '日']

/-- `any(w in s for w in WEEK_DAYS)`: every recognized weekday token is a
single character, so substring containment is character containment. -/
def containsWeekday (s : String) : Bool :=
  s.data.any (fun c => WEEK_DAYS.contains c)

/-! The selectors appearing literally in the source. -/

def selCard : Sel := .single ⟨none, ["card", "clinic-list__card"], []⟩
def selNumberRanked : Sel := .single ⟨none, ["number_ranked"], []⟩
def selCardTitle : Sel := .single ⟨some "a", ["card__title"], []⟩
def selRatingNumber : Sel := .single ⟨none, ["rating-number"], []⟩
def selReportCount : Sel := .single ⟨some "a", ["report-count"], []⟩
def selSnippetContent : Sel := .single ⟨none, ["card__report-snippet-content"], []⟩
def selSnippetName : Sel := .single ⟨none, ["card__report-snippet-name"], []⟩
def selCardImages : Sel :=
  .descend ⟨none, ["card__image-list"], []⟩ ⟨some "img", ["card__image"], [("src", none)]⟩
def selFeatures : Sel :=
  .descend ⟨none, ["card__feature-list"], []⟩ ⟨none, ["card__feature"], []⟩
def selCardDetail : Sel := .single ⟨none, ["card__detail"], []⟩
def selAccessText : Sel := .single ⟨none, ["card__access-text"], []⟩
def selSmallListItem : Sel := .single ⟨some "a", ["small-list__item"], []⟩
def selSmallTitle : Sel := .single ⟨none, ["small-list__title"], []⟩
def selSmallPrice : Sel := .single ⟨none, ["small-list__price"], []⟩
def selPickup : Sel := .single ⟨none, ["pickup-label_active"], []⟩
def selTreatmentCat : Sel := .single ⟨none, ["treatment-category"], []⟩
def selKdsImg : Sel := .descend ⟨none, ["kds-line-height-0"], []⟩ ⟨some "img", [], []⟩
def selSmallIconImg : Sel := .descend ⟨none, ["small-list__icon"], []⟩ ⟨some "img", [], []⟩
def selTableTable : Sel := .single ⟨some "table", ["table"], []⟩
def selTbodyTr : Sel := .childOf ⟨some "tbody", [], []⟩ ⟨some "tr", [], []⟩
def selH1 : Sel := .single ⟨some "h1", [], []⟩
def selOgImage : Sel := .single ⟨some "meta", [], [("property", some "og:image")]⟩

/-- The recurring source idiom `clean_text(x and x.get_text())`: `""` when
the element is absent. -/
def cleanGet (x : Option Node) : String :=
  match x with
  | none => ""
  | some n => clean_text (n.getText "")

/-- One row of the `parse_hours_table` loop: a row needs at least two `td`
cells; the first cell is the day label and is kept only when nonempty and
containing a weekday token; `hours[day] = time_text` overwrites duplicates
within one table. -/
def hoursRowStep (hours : List (String × String)) (tr : Node) :
    List (String × String) :=
  match findAllTag tr "td" with
  | td0 :: td1 :: _ =>
    let day := clean_text (td0.getText "")
    let time_text := clean_text (td1.getText " ")
    if day ≠ "" && containsWeekday day then dictAssign hours day time_text
    else hours
  | _ => hours

/-- `parse_hours_table` from the source: rows are `tbody > tr` if any, else
all `tr` descendants. -/
def parse_hours_table : Option Node → List (String × String)
  | none => []
  | some table =>
    let sel := table.select selTbodyTr
    let trs := if sel.isEmpty then findAllTag table "tr" else sel
    trs.foldl hoursRowStep []

/-- `extract_hours_from_scope` from the source: over every `table` of the
scope, in document order, keep only tables whose cleaned text, truncated to
its first 200 characters, contains a weekday token; merge each table's
parsed rows with `setdefault` (first writer wins). -/
def hoursMergeStep (hours : List (String × String)) (table : Node) :
    List (String × String) :=
  let th_text := (clean_text (table.getText "")).take 200
  if containsWeekday th_text then
    (parse_hours_table (some table)).foldl
      (fun h kv => dictSetdefault h kv.1 kv.2) hours
  else hours

def extract_hours_from_scope (scope : Node) : List (String × String) :=
  (findAllTag scope "table").foldl hoursMergeStep []

/-! ### Menus extraction -/

/-- The ambient configuration and network, passed explicitly: the
`MENU_IMG_FOLLOW` flag and the composite of `fetch` with HTML parsing
(`fetchDoc url` is the parsed tree of a successful `fetch(url)`, or the
error it raised). -/
structure Env where
  followDetail : Bool
  fetchDoc : String → Except String Node

/-- Third choice of `fetch_menu_image_from_detail`: the first `img` of the
page. -/
def menuImgFirst (soup : Node) (url : String) : String :=
  match findFirstTag soup "img" with
  | some tag =>
    let src := pick_img_src (some tag)
    if src ≠ "" then to_abs_url src url else ""
  | none => ""

/-- Second choice of `fetch_menu_image_from_detail`: `.kds-line-height-0 img`,
falling through to the first `img` when it yields no source. -/
def menuImgKds (soup : Node) (url : String) : String :=
  match soup.selectOne selKdsImg with
  | some tag =>
    let src := pick_img_src (some tag)
    if src ≠ "" then to_abs_url src url else menuImgFirst soup url
  | none => menuImgFirst soup url

/-- `fetch_menu_image_from_detail` from the source: a fetch failure is
swallowed and yields `""`; otherwise `og:image` meta content, else the
`.kds-line-height-0 img`, else the first `img`, else `""`. -/
def fetch_menu_image_from_detail (env : Env) (url : String) : String :=
  match env.fetchDoc url with
  | .error _ => ""
  | .ok soup =>
    match soup.selectOne selOgImage with
    | some og =>
      match og.attr? "content" with
      | some c => if c ≠ "" then to_abs_url (pyStrip c) url else menuImgKds soup url
      | none => menuImgKds soup url
    | none => menuImgKds soup url

structure MenuItem where
  title : String
  price_jpy : Option Nat
  price_raw : String
  url : String
  pickup_flag : Bool
  category_raw : String
  menu_img : String
deriving DecidableEq, Repr

/-- `extract_menus_from_scope` from the source.  `base_url = ""` models the
Python default `None`. -/
def extract_menus_from_scope (env : Env) (scope : Node) (base_url : String) :
    List MenuItem :=
  (scope.select selSmallListItem).map (fun a =>
    let title := cleanGet (a.selectOne selSmallTitle)
    let price_text := cleanGet (a.selectOne selSmallPrice)
    let price_jpy := parse_price price_text
    let href := (a.attr? "href").getD ""
    let menu_url := if base_url ≠ "" then urljoin base_url href else href
    let pickup := (a.selectOne selPickup).isSome
    let cat := cleanGet (a.selectOne selTreatmentCat)
    let img_tag := (a.selectOne selKdsImg) <|> (a.selectOne selSmallIconImg)
      <|> (findFirstTag a "img")
    let mi0 := pick_img_src img_tag
    let mi1 :=
      if mi0 ≠ "" then
        to_abs_url mi0
          (if menu_url ≠ "" then menu_url else if base_url ≠ "" then base_url else "")
      else mi0
    let menu_img :=
      if mi1 = "" && env.followDetail && menu_url ≠ "" then
        fetch_menu_image_from_detail env menu_url
      else mi1
    ⟨title, price_jpy, price_text, menu_url, pickup, cat, menu_img⟩)

/-! ### Card and page parsing -/

structure Card where
  rank : Option Nat
  name : String
  clinic_url : String
  rating : Option String
  reviews : Option Nat
  snippet : String
  snippet_author : String
  images : List String
  features : List String
  access : String
  hours : List (String × String)
  menus : List MenuItem
deriving DecidableEq, Repr

/-- `parse_card` from the source. -/
def parse_card (env : Env) (card : Node) (base_url : String) : Card :=
  let rank := match card.selectOne selNumberRanked with
    | some el => to_int (el.getText "")
    | none => none
  let a_title := card.selectOne selCardTitle
  let name := clean_text (match a_title with | some a => a.getText "" | none => "")
  let clinic_url := match a_title with
    | some a =>
      match a.attr? "href" with
      | some h => if base_url ≠ "" then urljoin base_url h else h
      | none => ""
    | none => ""
  let rating := match card.selectOne selRatingNumber with
    | some el => floatCanon? (pyStrip (el.getText ""))
    | none => none
  let reviews := match card.selectOne selReportCount with
    | some el => to_int (el.getText "")
    | none => none
  let snippet := cleanGet (card.selectOne selSnippetContent)
  let snippet_author :=
    pyStrip (String.mk ((cleanGet (card.selectOne selSnippetName)).data.dropWhile
      (fun c => c = '-')))
  let images := (card.select selCardImages).map (fun img => (img.attr? "src").getD "")
  let features := (card.select selFeatures).map (fun li => clean_text (li.getText ""))
  let access :=
    let a := cleanGet (card.selectOne selCardDetail)
    if a ≠ "" then a else cleanGet (card.selectOne selAccessText)
  let menus := extract_menus_from_scope env card base_url
  let hours := parse_hours_table (card.selectOne selTableTable)
  ⟨rank, name, clinic_url, rating, reviews, snippet, snippet_author, images,
    features, access, hours, menus⟩

/-- `parse_page` from the source (the returned soup is dropped here, being
used only for the raw audit file).  With zero matching cards the page is a
single fallback candidate: heading text, else title text, as the name, the
page URL as `clinic_url`, every other field at its empty default. -/
def parse_page (env : Env) (doc : Node) (page_url : String) : List Card :=
  let cards := (doc.select selCard).map (fun c => parse_card env c page_url)
  if cards.isEmpty then
    let title := clean_text (match findFirstTag doc "title" with
      | some t => (t.string?).getD ""
      | none => "")
    let h1 := cleanGet (doc.selectOne selH1)
    [⟨none, if h1 ≠ "" then h1 else title, page_url, none, none, "", "", [], [],
      "", [], []⟩]
  else cards

/-! ### Completion engine (main, lines 429-445) -/

/-- Re-running the extractors against a fetched detail document and merging
only non-empty results (the body of the `try` block in `main`). -/
def mergeCompletion (env : Env) (clinicUrl : String) (needMenus needHours : Bool)
    (d : Node) (c : Card) : Card :=
  let c1 :=
    if needMenus then
      let em := extract_menus_from_scope env d clinicUrl
      if !em.isEmpty then { c with menus := em } else c
    else c
  if needHours then
    let eh := extract_hours_from_scope d
    if !eh.isEmpty then { c1 with hours := eh } else c1
  else c1

/-- The completion step of `main` for one candidate, also returning the list
of detail URLs it fetched.  `clinicUrl` is `c.get("clinic_url") or
source_page_url` as computed by the caller; content is re-fetched only when
it differs from the listing's URL; a fetch failure is swallowed, leaving the
candidate unchanged. -/
def completeCardL (env : Env) (sourceUrl : String) (listingDoc : Node)
    (clinicUrl : String) (c : Card) : Card × List String :=
  let needMenus := c.menus.isEmpty
  let needHours := c.hours.isEmpty
  if needMenus || needHours then
    if clinicUrl ≠ sourceUrl then
      match env.fetchDoc clinicUrl with
      | .error _ => (c, [clinicUrl])
      | .ok d => (mergeCompletion env clinicUrl needMenus needHours d c, [clinicUrl])
    else (mergeCompletion env clinicUrl needMenus needHours listingDoc c, [])
  else (c, [])

def completeCard (env : Env) (sourceUrl : String) (listingDoc : Node)
    (clinicUrl : String) (c : Card) : Card :=
  (completeCardL env sourceUrl listingDoc clinicUrl c).1

/-! ### Assembler (main, lines 447-503) -/

/-- The `notes` summary of `main`: conditional fragments appended in the
fixed order rating, reviews, menus, hours, joined by `", "`. -/
def buildNotes (c : Card) : String :=
  let notes : List String := []
  let notes := match c.rating with
    | some r => notes ++ ["rating=" ++ r]
    | none => notes
  let notes := match c.reviews with
    | some n => notes ++ ["reviews=" ++ toString n]
    | none => notes
  let notes := if c.menus.length = 0 then notes ++ ["menus=0"] else notes
  let notes := if c.hours.length = 0 then notes ++ ["hours=0"] else notes
  String.intercalate ", " notes

def hexDigit (n : Nat) : Char :=
  if n < 10 then Char.ofNat (48 + n) else Char.ofNat (87 + n)

/-- JSON string escaping as `json.dumps(..., ensure_ascii=False)` performs
it: named escapes for the common control characters, `\u00XX` for the rest,
non-ASCII characters kept literal. -/
def jsonEscapeChar (c : Char) : String :=
  if c = '"' then "\\\""
  else if c = '\\' then "\\\\"
  else if c = '\n' then "\\n"
  else if c = '\r' then "\\r"
  else if c = '\t' then "\\t"
  else if c.toNat < 32 then
    "\\u00" ++ String.mk [hexDigit (c.toNat / 16), hexDigit (c.toNat % 16)]
  else String.mk [c]

def jsonStr (s : String) : String :=
  "\"" ++ String.join (s.data.map jsonEscapeChar) ++ "\""

/-- `json.dumps` of a string-to-string dict with the default separators. -/
def jsonDumpsDict (d : List (String × String)) : String :=
  "\x7b" ++ String.intercalate ", "
    (d.map (fun kv => jsonStr kv.1 ++ ": " ++ jsonStr kv.2)) ++ "\x7d"

structure ClinicRow where
  timestamp_utc : String
  clinic_id : String
  name : String
  rank : Option Nat
  rating : Option String
  reviews_count : Option Nat
  clinic_url : String
  source_page_url : String
  access_text : String
  snippet : String
  snippet_author : String
  images_csv : String
  features_csv : String
  hours_json : String
  last_seen_utc : String
  status : String
  notes : String
deriving DecidableEq, Repr

structure MenuRow where
  timestamp_utc : String
  clinic_id : String
  menu_title : String
  price_jpy : Option Nat
  price_raw : String
  menu_url : String
  pickup_flag : Bool
  category_raw : String
  menu_img : String
deriving DecidableEq, Repr

structure HoursRow where
  timestamp_utc : String
  clinic_id : String
  day : String
  open_time : String
  close_time : String
  raw : String
deriving DecidableEq, Repr

/-- The clinics-row dict built in `main` for one (completed) candidate. -/
def clinicRowOf (ts sourceUrl clinicUrl clinicId : String) (c : Card) : ClinicRow :=
  ⟨ts, clinicId, c.name, c.rank, c.rating, c.reviews, clinicUrl, sourceUrl,
    c.access, c.snippet, c.snippet_author,
    String.intercalate "," (c.images.filter (fun x => x ≠ "")),
    String.intercalate "," (c.features.filter (fun x => x ≠ "")),
    jsonDumpsDict c.hours, ts, "ok", buildNotes c⟩

def menuRowOf (ts clinicId : String) (m : MenuItem) : MenuRow :=
  ⟨ts, clinicId, m.title, m.price_jpy, m.price_raw, m.url, m.pickup_flag,
    m.category_raw, m.menu_img⟩

def hoursRowOf (ts clinicId day raw : String) : HoursRow :=
  let oc := split_open_close raw
  ⟨ts, clinicId, day, oc.1, oc.2, raw⟩

/-- The body of `main`'s per-page loop (lines 419-503): parse the page into
candidates, complete each, then append one clinics row per candidate, one
menus row per menu item and one hours row per hours entry. -/
def processPage (env : Env) (ts sourceUrl : String) (doc : Node) :
    List ClinicRow × List MenuRow × List HoursRow :=
  let cards := parse_page env doc sourceUrl
  let processed := cards.map (fun c =>
    let clinicUrl := if c.clinic_url ≠ "" then c.clinic_url else sourceUrl
    (clinicUrl, completeCard env sourceUrl doc clinicUrl c))
  (processed.map (fun p =>
      clinicRowOf ts sourceUrl p.1 (get_clinic_id_from_url p.1) p.2),
   processed.flatMap (fun p =>
      p.2.menus.map (menuRowOf ts (get_clinic_id_from_url p.1))),
   processed.flatMap (fun p =>
      p.2.hours.map (fun kv => hoursRowOf ts (get_clinic_id_from_url p.1) kv.1 kv.2)))

/-! ### Fetcher (`fetch`, lines 47-57) -/

/-- One outcome of `requests.get`/`requests.head`: a raised transport
exception, or a response with its final status and body. -/
inductive HttpOutcome where
  | exc (e : String)
  | resp (status : Nat) (body : String)
deriving DecidableEq, Repr

inductive FetchErr where
  | exc (e : String)
  | httpError (status : Nat)
deriving DecidableEq, Repr

def RETRY : Nat := 3
def SLEEP_BETWEEN : Nat := 2

/-- One attempt of `fetch`'s `try` body: `requests.get` either raises, or
returns a response on which `raise_for_status()` raises exactly for the 4xx
and 5xx status codes; otherwise the body text is returned. -/
def attemptOnce : HttpOutcome → Except FetchErr String
  | .exc e => .error (.exc e)
  | .resp s b => if 400 ≤ s ∧ s < 600 then .error (.httpError s) else .ok b

deriving instance DecidableEq for Except

structure FetchResult where
  outcome : Except FetchErr String
  sleeps : List Nat
  attempts : Nat
deriving DecidableEq, Repr

/-- The retry loop of `fetch`: the i-th attempt (0-based) consults the
oracle; a failure records the exception and sleeps `SLEEP_BETWEEN * (i+1)`;
after the bound is exhausted the last exception is raised. -/
def fetchLoop (oracle : Nat → HttpOutcome) :
    Nat → Nat → Option FetchErr → List Nat → Nat → FetchResult
  | 0, _, last, sleeps, att => ⟨.error (last.getD (.exc "")), sleeps, att⟩
  | r + 1, i, _, sleeps, att =>
    match attemptOnce (oracle i) with
    | .ok b => ⟨.ok b, sleeps, att + 1⟩
    | .error e =>
      fetchLoop oracle r (i + 1) (some e) (sleeps ++ [SLEEP_BETWEEN * (i + 1)]) (att + 1)

/-- `fetch` from the source, over an oracle giving each attempt's outcome. -/
def fetch (oracle : Nat → HttpOutcome) : FetchResult :=
  fetchLoop oracle RETRY 0 none [] 0

/-! ### Existence probe and sequential-ID discovery (lines 59-85) -/

/-- `check_url_exists` from the source: a HEAD outcome, and the GET outcome
used when HEAD answers 405 or 403.  Any exception from either request is
caught and yields `False`. -/
def check_url_exists (head get2 : HttpOutcome) : Bool :=
  match head with
  | .exc _ => false
  | .resp s _ =>
    if s = 405 || s = 403 then
      match get2 with
      | .exc _ => false
      | .resp s2 _ => s2 = 200
    else s = 200

def format04 (n : Nat) : String :=
  let s := toString n
  if s.length < 4 then String.mk (List.replicate (4 - s.length) '0') ++ s else s

def clinicsBase : String := "https://kireireport.com/clinics"

/-- `build_target_urls_auto` from the source: a non-numeric `END_ID` aborts;
otherwise every id from 1 to `END_ID` is formatted into a URL and kept
exactly when the probe answers true. -/
def build_target_urls_auto (endIdStr : String) (probe : String → Bool) :
    Except String (List String) :=
  if endIdStr.data ≠ [] ∧ endIdStr.data.all Char.isDigit then
    .ok (((List.range' 1 (digitsToNat endIdStr.data)).map
        (fun cid => clinicsBase ++ "/" ++ format04 cid)).foldl
        (fun acc url => if probe url then acc ++ [url] else acc) [])
  else .error "END_ID must be numeric"

/-! ### Target resolver (`load_urls_from_env`, lines 31-44) -/

def isSepC (c : Char) : Bool := isPyWs c || c = ','

/-- `re.sub(r"[\s,]+", " ", s)`: collapse separator runs to single spaces. -/
def flattenGo : Bool → List Char → List Char
  | _, [] => []
  | inRun, c :: rest =>
    if isSepC c then
      if inRun then flattenGo true rest else ' ' :: flattenGo true rest
    else c :: flattenGo false rest

/-- Match `https?://` at the head: the greedy optional `s` is deterministic,
so this is literal matching of `https://` then `http://`. -/
def schemeHead? (cs : List Char) : Option (List Char × List Char) :=
  match stripLit "https://".data cs with
  | some r => some ("https://".data, r)
  | none =>
    match stripLit "http://".data cs with
    | some r => some ("http://".data, r)
    | none => none

/-- The lookahead `(?=https?://|\s|$)` of the URL-splitting pattern. -/
def gapStop : List Char → Bool
  | [] => true
  | c :: rest => isPyWs c || (schemeHead? (c :: rest)).isSome

/-- The lazy `.*?` before the lookahead: consume characters until the
lookahead holds. -/
def takeGap : List Char → List Char × List Char
  | [] => ([], [])
  | c :: rest =>
    if gapStop (c :: rest) then ([], c :: rest)
    else
      let p := takeGap rest
      (c :: p.1, p.2)

/-- `re.findall(r"https?://.*?(?=https?://|\s|$)", flat)`: scan left to
right; every position where the scheme matches starts a match (the
lookahead always eventually holds), and scanning resumes where the match
ends.  Fuel bounds the recursion; any fuel above the list length is enough
since every step consumes at least one character. -/
def urlFindAllF : Nat → List Char → List (List Char)
  | 0, _ => []
  | _ + 1, [] => []
  | fuel + 1, c :: rest =>
    match schemeHead? (c :: rest) with
    | some (sch, after) =>
      let p := takeGap after
      (sch ++ p.1) :: urlFindAllF fuel p.2
    | none => urlFindAllF fuel rest

/-- The dedup loop of `load_urls_from_env`: strip each found URL, keep the
nonempty unseen ones in order. -/
def dedupLoop : List String → List String → List String
  | [], _ => []
  | u :: rest, seen =>
    let u' := pyStrip u
    if u' ≠ "" ∧ ¬ seen.contains u' then u' :: dedupLoop rest (u' :: seen)
    else dedupLoop rest seen

/-- `load_urls_from_env` from the source, over the raw `TARGET_URLS` text. -/
def load_urls_from_env (raw : String) : List String :=
  let flat := flattenGo false (pyStrip raw).data
  dedupLoop ((urlFindAllF (flat.length + 1) flat).map String.mk) []

/-! ### Concrete documents used by the example-level theorems -/

/-- Environment with `MENU_IMG_FOLLOW` disabled and no reachable network. -/
def envOff : Env := ⟨false, fun _ => .error "network disabled"⟩

/-- A listing-card menu anchor with title "Menu A" and price text `¥3,000`,
no inline image. -/
def menuAnchorC1 : Node :=
  .elem "a" [("class", "small-list__item"), ("href", "https://menus.example/1")]
    (.ofList [
      .elem "div" [("class", "small-list__title")] (.ofList [.text "Menu A"]),
      .elem "div" [("class", "small-list__price")] (.ofList [.text "¥3,000"])])

/-- The single card of the end-to-end example: name "Sample Clinic", rating
text "4.5", review text "120", one menu item, no hours table, no detail
anchor. -/
def cardC1 : Node :=
  .elem "div" [("class", "card clinic-list__card")] (.ofList [
    .elem "a" [("class", "card__title")] (.ofList [.text "Sample Clinic"]),
    .elem "span" [("class", "rating-number")] (.ofList [.text "4.5"]),
    .elem "a" [("class", "report-count")] (.ofList [.text "120"]),
    menuAnchorC1])

def docC1 : Node :=
  .elem "html" [] (.ofList [.elem "body" [] (.ofList [cardC1])])

/-- A card whose `table.table` holds the single explicit hours row
`月 / 10:00〜19:00`. -/
def tableC2 : Node :=
  .elem "table" [("class", "table")] (.ofList [
    .elem "tbody" [] (.ofList [
      .elem "tr" [] (.ofList [
        .elem "td" [] (.ofList [.text "月"]),
        .elem "td" [] (.ofList [.text "10:00〜19:00"])])])])

def cardC2 : Node :=
  .elem "div" [("class", "card clinic-list__card")] (.ofList [tableC2])

def docC2 : Node :=
  .elem "html" [] (.ofList [.elem "body" [] (.ofList [cardC2])])

/-- A `table.table` whose only row has a first cell ("Open") without any
weekday token. -/
def tableC3 : Node :=
  .elem "table" [("class", "table")] (.ofList [
    .elem "tr" [] (.ofList [
      .elem "td" [] (.ofList [.text "Open"]),
      .elem "td" [] (.ofList [.text "10:00-19:00"])])])

def cardC3 : Node :=
  .elem "div" [("class", "card clinic-list__card")] (.ofList [tableC3])

/-- First table of the C9 scene: its parsed rows contain 月, but its cleaned
text starts with 250 filler characters, so the first 200 characters hold no
weekday token. -/
def t1C9 : Node := .elem "table" [] (.ofList [
  .elem "tr" [] (.ofList [
    .elem "td" [] (.ofList [.text (String.mk (List.replicate 250 'x'))]),
    .elem "td" [] (.ofList [.text "y"])]),
  .elem "tr" [] (.ofList [
    .elem "td" [] (.ofList [.text "月"]),
    .elem "td" [] (.ofList [.text "09:00-17:00"])])])

/-- Second table of the C9 scene, also containing 月 with a different
value. -/
def t2C9 : Node := .elem "table" [] (.ofList [
  .elem "tr" [] (.ofList [
    .elem "td" [] (.ofList [.text "月"]),
    .elem "td" [] (.ofList [.text "10:00-19:00"])])])

def scopeC9 : Node := .elem "body" [] (.ofList [t1C9, t2C9])

/-- A page with no card elements, a title and an `h1` heading. -/
def docC5 : Node := .elem "html" [] (.ofList [
  .elem "head" [] (.ofList [.elem "title" [] (.ofList [.text "Fallback Title"])]),
  .elem "body" [] (.ofList [.elem "h1" [] (.ofList [.text "Heading"])])])

/-- A scope holding exactly the one menu anchor of the example. -/
def menuScopeC8 : Node := .elem "div" [] (.ofList [menuAnchorC1])

/-! ### Auxiliary notions and lemmas used by the claim theorems -/

-- C10 helper + draft
theorem foldl_keep_eq_filter (p : String → Bool) :
    ∀ (l : List String) (acc : List String),
      l.foldl (fun a x => if p x then a ++ [x] else a) acc = acc ++ l.filter p := by
  intro l
  induction l with
  | nil => intro acc; simp
  | cons x xs ih =>
    intro acc
    by_cases h : p x
    · simp [List.foldl_cons, h, ih, List.filter_cons, List.append_assoc]
    · simp [List.foldl_cons, h, ih, List.filter_cons]

-- dict lemmas
theorem mem_dictAssign {d : List (String × String)} {k v : String} {p : String × String}
    (hp : p ∈ dictAssign d k v) : p.1 = k ∨ p ∈ d := by
  unfold dictAssign at hp
  split at hp
  · rw [List.mem_map] at hp
    obtain ⟨q, hq, hfq⟩ := hp
    by_cases hqk : q.1 = k
    · rw [if_pos hqk] at hfq
      left
      rw [← hfq]
    · rw [if_neg hqk] at hfq
      right
      rw [← hfq]
      exact hq
  · rw [List.mem_append] at hp
    rcases hp with h | h
    · right
      exact h
    · left
      simp at h
      rw [h]

theorem hoursStep_mem : ∀ (trs : List Node) (init : List (String × String)),
    (∀ q ∈ init, q.1 ≠ "" ∧ containsWeekday q.1 = true) →
    ∀ p ∈ trs.foldl hoursRowStep init, p.1 ≠ "" ∧ containsWeekday p.1 = true := by
  intro trs
  induction trs with
  | nil => intro init h p hp; exact h p hp
  | cons tr rest ih =>
    intro init h p hp
    rw [List.foldl_cons] at hp
    refine ih _ ?_ p hp
    intro q hq
    unfold hoursRowStep at hq
    split at hq
    · dsimp only at hq
      split at hq
      · rename_i hday
        simp only [Bool.and_eq_true, decide_eq_true_eq] at hday
        rcases mem_dictAssign hq with h1 | h1
        · rw [h1]
          exact hday
        · exact h q h1
      · exact h q hq
    · exact h q hq

-- option-or lemmas for C9
def optOr (a b : Option String) : Option String :=
  match a with
  | some v => some v
  | none => b

theorem optOr_none (a : Option String) : optOr a none = a := by
  cases a <;> rfl

theorem optOr_assoc (a b c : Option String) :
    optOr (optOr a b) c = optOr a (optOr b c) := by
  cases a <;> rfl

theorem lookup_append (l1 l2 : List (String × String)) (k : String) :
    dictLookup (l1 ++ l2) k = optOr (dictLookup l1 k) (dictLookup l2 k) := by
  induction l1 with
  | nil => simp [dictLookup, optOr]
  | cons p rest ih =>
    rcases p with ⟨k1, v1⟩
    by_cases h : k == k1
    · simp [dictLookup, List.lookup, h, optOr]
    · simp [dictLookup, List.lookup, h, optOr]
      simpa [dictLookup] using ih

theorem lookup_cons_optOr (p : String × String) (rest : List (String × String)) (k : String) :
    dictLookup (p :: rest) k = optOr (dictLookup [p] k) (dictLookup rest k) := by
  rcases p with ⟨k1, v1⟩
  by_cases h : k == k1 <;> simp [dictLookup, List.lookup, h, optOr]

theorem lookup_setdefault (d : List (String × String)) (k' v k : String) :
    dictLookup (dictSetdefault d k' v) k =
      optOr (dictLookup d k) (dictLookup [(k', v)] k) := by
  unfold dictSetdefault
  split
  · rename_i hpres
    by_cases h : k = k'
    · subst h
      obtain ⟨w, hw⟩ := Option.isSome_iff_exists.mp hpres
      simp only [dictLookup]
      rw [hw]
      rfl
    · have hbe : (k == k') = false := by simp [h]
      have hnone : dictLookup [(k', v)] k = none := by
        simp [dictLookup, List.lookup, hbe]
      rw [hnone, optOr_none]
  · exact lookup_append d [(k', v)] k

theorem lookup_foldl_setdefault :
    ∀ (l : List (String × String)) (d : List (String × String)) (k : String),
      dictLookup (l.foldl (fun h kv => dictSetdefault h kv.1 kv.2) d) k =
        optOr (dictLookup d k) (dictLookup l k) := by
  intro l
  induction l with
  | nil => intro d k; simp [dictLookup, optOr_none]
  | cons kv rest ih =>
    intro d k
    rw [List.foldl_cons, ih, lookup_setdefault, optOr_assoc, ← lookup_cons_optOr]

theorem lookup_foldl_merge :
    ∀ (tables : List Node) (d : List (String × String)) (k : String),
      dictLookup (tables.foldl hoursMergeStep d) k =
        optOr (dictLookup d k)
          (dictLookup ((tables.filter (fun t =>
              containsWeekday ((clean_text (t.getText "")).take 200))).flatMap
            (fun t => parse_hours_table (some t))) k) := by
  intro tables
  induction tables with
  | nil => intro d k; simp [dictLookup, optOr_none]
  | cons t rest ih =>
    intro d k
    rw [List.foldl_cons]
    by_cases hpre : containsWeekday ((clean_text (t.getText "")).take 200) = true
    · have hstep : hoursMergeStep d t =
          (parse_hours_table (some t)).foldl (fun h kv => dictSetdefault h kv.1 kv.2) d := by
        unfold hoursMergeStep
        rw [if_pos hpre]
      rw [hstep, ih, lookup_foldl_setdefault, optOr_assoc]
      simp only [List.filter_cons, hpre, if_true, List.flatMap_cons]
      rw [lookup_append]
    · have hstep : hoursMergeStep d t = d := by
        unfold hoursMergeStep
        rw [if_neg hpre]
      rw [hstep, ih]
      simp only [List.filter_cons]
      rw [if_neg hpre]

/-- One match attempt of `TIME_RANGE_RE` at position `i`. -/
def matchAt (cs : List Char) (i : Nat) : Option (List Char × List Char) :=
  match timeToken? (cs.drop i) with
  | none => none
  | some (o, after) => (findClose after).map (fun c => (o, c))

theorem matchAt_succ (ch : Char) (rest : List Char) (k : Nat) :
    matchAt (ch :: rest) (k + 1) = matchAt rest k := by
  simp [matchAt, List.drop_succ_cons]

theorem timeToken_eq : ∀ (l o rest : List Char), timeToken? l = some (o, rest) →
    l = o ++ rest ∧ isHMM o = true := by
  intro l o rest h
  match l with
  | [] => simp [timeToken?] at h
  | [a] => simp [timeToken?] at h
  | [a, b] => simp [timeToken?] at h
  | [a, b, c] => simp [timeToken?] at h
  | [a, b, c, d] =>
    simp only [timeToken?] at h
    split_ifs at h with h1
    obtain ⟨rfl, rfl⟩ : [a, b, c, d] = o ∧ ([] : List Char) = rest := by
      simpa using h
    exact ⟨by simp, by simpa [isHMM] using h1⟩
  | a :: b :: c :: d :: e :: t =>
    simp only [timeToken?] at h
    split_ifs at h with h1 h2
    · obtain ⟨rfl, rfl⟩ : [a, b, c, d, e] = o ∧ t = rest := by simpa using h
      exact ⟨by simp, by simpa [isHMM] using h1⟩
    · obtain ⟨rfl, rfl⟩ : [a, b, c, d] = o ∧ e :: t = rest := by simpa using h
      exact ⟨by simp, by simpa [isHMM] using h2⟩

theorem findClose_shape : ∀ (l c : List Char), findClose l = some c →
    isHMM c = true ∧
      ∃ g r, l = g ++ c ++ r ∧ g.all (fun ch => ch ≠ '\n') = true := by
  intro l
  induction l with
  | nil => intro c h; simp [findClose] at h
  | cons ch rest ih =>
    intro c h
    unfold findClose at h
    cases htok : timeToken? (ch :: rest) with
    | some p =>
      rw [htok] at h
      rcases p with ⟨tok, after⟩
      have hc : tok = c := by simpa using h
      subst hc
      obtain ⟨heq, hmm⟩ := timeToken_eq _ _ _ htok
      exact ⟨hmm, [], after, by simpa using heq, rfl⟩
    | none =>
      rw [htok] at h
      split_ifs at h with hnl
      obtain ⟨hmm, g, r, hgr, hall⟩ := ih c h
      subst hgr
      exact ⟨hmm, ch :: g, r, by simp, by
        simp only [List.all_cons, Bool.and_eq_true]
        exact ⟨by simp [hnl], hall⟩⟩

theorem searchPair_first : ∀ (cs : List Char) (i : Nat) (o c : List Char),
    matchAt cs i = some (o, c) → (∀ k, k < i → matchAt cs k = none) →
    searchPair cs = some (o, c) := by
  intro cs
  induction cs with
  | nil =>
    intro i o c hm _
    simp [matchAt, timeToken?] at hm
  | cons ch rest ih =>
    intro i o c hm hk
    cases i with
    | zero =>
      unfold matchAt at hm
      simp only [List.drop_zero] at hm
      conv_lhs => rw [searchPair]
      cases htok : timeToken? (ch :: rest) with
      | none => simp [htok] at hm
      | some p =>
        rcases p with ⟨o', after⟩
        simp only [htok] at hm ⊢
        cases hcl : findClose after with
        | none => simp [hcl] at hm
        | some ctok =>
          simp only [hcl, Option.map_some] at hm ⊢
          exact hm
    | succ k =>
      have h0 : matchAt (ch :: rest) 0 = none := hk 0 (Nat.succ_pos k)
      unfold matchAt at h0
      simp only [List.drop_zero] at h0
      have hstep : searchPair (ch :: rest) = searchPair rest := by
        conv_lhs => rw [searchPair]
        cases htok : timeToken? (ch :: rest) with
        | none => simp only [htok]
        | some p =>
          rcases p with ⟨o', after⟩
          simp only [htok] at h0 ⊢
          cases hcl : findClose after with
          | none => simp only [hcl]
          | some ctok =>
            simp [hcl] at h0
      rw [hstep]
      rw [matchAt_succ] at hm
      refine ih k o c hm ?_
      intro j hj
      have hx := hk (j + 1) (Nat.succ_lt_succ hj)
      rwa [matchAt_succ] at hx

theorem matchAt_ge (cs : List Char) (i : Nat) (h : cs.length ≤ i) :
    matchAt cs i = none := by
  unfold matchAt
  rw [List.drop_eq_nil_of_le h]
  rfl

theorem searchPair_none : ∀ cs : List Char, (∀ i, matchAt cs i = none) →
    searchPair cs = none := by
  intro cs
  induction cs with
  | nil => intro _; rfl
  | cons ch rest ih =>
    intro h
    have h0 := h 0
    unfold matchAt at h0
    simp only [List.drop_zero] at h0
    have hrest : ∀ i, matchAt rest i = none := by
      intro i
      have hx := h (i + 1)
      rwa [matchAt_succ] at hx
    conv_lhs => rw [searchPair]
    cases htok : timeToken? (ch :: rest) with
    | none => simp only [htok]; exact ih hrest
    | some p =>
      rcases p with ⟨o', after⟩
      simp only [htok] at h0 ⊢
      cases hcl : findClose after with
      | none => simp only [hcl]; exact ih hrest
      | some ctok => simp [hcl] at h0

def yenTokenAt : List Char → Bool
  | [] => false
  | c :: r =>
    if c = '¥' then
      match (r.dropWhile isPyWs).head? with
      | some d => d.isDigit || d = ','
      | none => false
    else false

def hasYenNum (s : String) : Bool :=
  (List.range s.data.length).any (fun i => yenTokenAt (s.data.drop i))

theorem yenScan_none : ∀ cs : List Char,
    (∀ i, i < cs.length → yenTokenAt (cs.drop i) = false) → yenScan cs = none := by
  intro cs
  induction cs with
  | nil => intro _; rfl
  | cons c rest ih =>
    intro h
    have h0 := h 0 (by simp)
    simp only [List.drop_zero] at h0
    have hrest : ∀ i, i < rest.length → yenTokenAt (rest.drop i) = false := by
      intro i hi
      have hx := h (i + 1) (by simpa using Nat.succ_lt_succ hi)
      simpa [List.drop_succ_cons] using hx
    unfold yenScan
    by_cases hc : c = '¥'
    · subst hc
      have h0' : (match (rest.dropWhile isPyWs).head? with
          | some d => d.isDigit || decide (d = ',')
          | none => false) = false := by
        simpa [yenTokenAt] using h0
      have hrun : (rest.dropWhile isPyWs).takeWhile (fun d => d.isDigit || d = ',') = [] := by
        cases hh : rest.dropWhile isPyWs with
        | nil => simp
        | cons d tail =>
          rw [hh] at h0'
          simp only [List.head?_cons] at h0'
          simp [List.takeWhile_cons, h0']
      rw [if_pos (rfl : ('¥' : Char) = '¥'), hrun]
      simp only []
      exact ih hrest
    · rw [if_neg hc]
      exact ih hrest

/-! C4 development -/

/-- A well-formed URL for the Target Resolver: it starts with `http://` or
`https://`, contains no whitespace or comma, and contains no embedded
second scheme marker. -/
def cleanUrlB (u : String) : Bool :=
  (schemeHead? u.data).isSome
  && u.data.all (fun c => !(isSepC c))
  && ((List.range u.data.length).all (fun i =>
        i == 0 || (schemeHead? (u.data.drop i)).isNone))

/-- First-occurrence-wins deduplication, the contract of the resolver. -/
def dedupFirstAux : List String → List String → List String
  | _, [] => []
  | seen, u :: rest =>
    if u ∈ seen then dedupFirstAux seen rest
    else u :: dedupFirstAux (u :: seen) rest

def dedupFirst (l : List String) : List String := dedupFirstAux [] l

theorem stripLit_some_eq : ∀ (lit cs r : List Char),
    stripLit lit cs = some r → cs = lit ++ r := by
  intro lit
  induction lit with
  | nil => intro cs r h; simp [stripLit] at h; simp [h]
  | cons l ls ih =>
    intro cs r h
    cases cs with
    | nil => simp [stripLit] at h
    | cons c cs' =>
      unfold stripLit at h
      split_ifs at h with hlc
      subst hlc
      rw [List.cons_append]
      exact congrArg (l :: ·) (ih cs' r h)

theorem stripLit_append_some : ∀ (lit cs r t : List Char),
    stripLit lit cs = some r → stripLit lit (cs ++ t) = some (r ++ t) := by
  intro lit
  induction lit with
  | nil => intro cs r t h; simp [stripLit] at h ⊢; simp [h]
  | cons l ls ih =>
    intro cs r t h
    cases cs with
    | nil => simp [stripLit] at h
    | cons c cs' =>
      rw [List.cons_append]
      unfold stripLit at h ⊢
      split_ifs at h ⊢ with hlc
      exact ih cs' r t h

theorem stripLit_split : ∀ (lit su t : List Char),
    (stripLit lit (su ++ t)).isSome →
    (stripLit lit su).isSome ∨
      ∃ lit', lit' ≠ [] ∧ lit = su ++ lit' ∧ (stripLit lit' t).isSome := by
  intro lit
  induction lit with
  | nil => intro su t _; left; simp [stripLit]
  | cons l ls ih =>
    intro su t h
    cases su with
    | nil =>
      right
      exact ⟨l :: ls, by simp, by simp, by simpa using h⟩
    | cons c cs' =>
      rw [List.cons_append] at h
      unfold stripLit at h
      split_ifs at h with hlc
      · subst hlc
        rcases ih cs' t h with h1 | ⟨lit', hne, heq, hs⟩
        · left
          unfold stripLit
          rw [if_pos rfl]
          exact h1
        · right
          exact ⟨lit', hne, by rw [List.cons_append, heq], hs⟩
      · simp at h

theorem schemeHead_isSome_iff (cs : List Char) :
    (schemeHead? cs).isSome ↔
      (stripLit "https://".data cs).isSome ∨ (stripLit "http://".data cs).isSome := by
  unfold schemeHead?
  cases h1 : stripLit "https://".data cs <;> cases h2 : stripLit "http://".data cs <;> simp

theorem schemeHead_some_eq : ∀ (cs : List Char) (sch rest : List Char),
    schemeHead? cs = some (sch, rest) →
    cs = sch ++ rest ∧ (sch = "https://".data ∨ sch = "http://".data) := by
  intro cs sch rest h
  unfold schemeHead? at h
  cases h1 : stripLit "https://".data cs with
  | some r =>
    rw [h1] at h
    obtain ⟨rfl, rfl⟩ : "https://".data = sch ∧ r = rest := by simpa using h
    exact ⟨stripLit_some_eq _ _ _ h1, Or.inl rfl⟩
  | none =>
    rw [h1] at h
    cases h2 : stripLit "http://".data cs with
    | some r =>
      rw [h2] at h
      obtain ⟨rfl, rfl⟩ : "http://".data = sch ∧ r = rest := by simpa using h
      exact ⟨stripLit_some_eq _ _ _ h2, Or.inr rfl⟩
    | none => rw [h2] at h; simp at h

theorem schemeHead_append : ∀ (cs sch rest t : List Char),
    schemeHead? cs = some (sch, rest) →
    schemeHead? (cs ++ t) = some (sch, rest ++ t) := by
  intro cs sch rest t h
  unfold schemeHead? at h ⊢
  cases h1 : stripLit "https://".data cs with
  | some r =>
    rw [h1] at h
    obtain ⟨rfl, rfl⟩ : "https://".data = sch ∧ r = rest := by simpa using h
    rw [stripLit_append_some _ _ _ t h1]
  | none =>
    rw [h1] at h
    cases h2 : stripLit "http://".data cs with
    | some r =>
      rw [h2] at h
      obtain ⟨rfl, rfl⟩ : "http://".data = sch ∧ r = rest := by simpa using h
      -- cs = "http://" ++ r, so the https attempt fails on cs ++ t as well
      have hcs : cs = "http://".data ++ r := stripLit_some_eq _ _ _ h2
      have hfail : stripLit "https://".data (cs ++ t) = none := by
        rw [hcs]
        rfl
      rw [hfail, stripLit_append_some _ _ _ t h2]
    | none => rw [h2] at h; simp at h

theorem schemeHead_head : ∀ (cs : List Char) (p : List Char × List Char),
    schemeHead? cs = some p → ∃ r, cs = 'h' :: r := by
  intro cs p h
  rcases p with ⟨sch, rest⟩
  obtain ⟨heq, hlit⟩ := schemeHead_some_eq cs sch rest h
  rcases hlit with rfl | rfl
  · exact ⟨"ttps://".data ++ rest, by simpa using heq⟩
  · exact ⟨"ttp://".data ++ rest, by simpa using heq⟩

/-- The continuation shapes that can follow a URL in the scanner: end of
input, a space, or the start of the next URL. -/
def contShape (t : List Char) : Prop :=
  t = [] ∨ (∃ r, t = ' ' :: r) ∨ (∃ r, t = 'h' :: r)

theorem stripLit_nil_none (lit : List Char) (h : lit ≠ []) :
    stripLit lit [] = none := by
  cases lit with
  | nil => exact absurd rfl h
  | cons l ls => rfl

theorem stripLit_cons_head : ∀ (lit hd : Char) (lits r : List Char),
    (stripLit (lit :: lits) (hd :: r)).isSome → lit = hd := by
  intro lit hd lits r h
  unfold stripLit at h
  split_ifs at h with hlc
  · exact hlc
  · simp at h

theorem schemeHead_suffix_none (su t : List Char)
    (hs : schemeHead? su = none) (hne : su ≠ []) (ht : contShape t) :
    schemeHead? (su ++ t) = none := by
  cases hfull : schemeHead? (su ++ t) with
  | none => rfl
  | some p =>
    exfalso
    have hsome : (stripLit "https://".data (su ++ t)).isSome ∨
        (stripLit "http://".data (su ++ t)).isSome :=
      (schemeHead_isSome_iff _).mp (by simp [hfull])
    have hsu : ¬ ((stripLit "https://".data su).isSome ∨
        (stripLit "http://".data su).isSome) := by
      rw [← schemeHead_isSome_iff]
      simp [hs]
    -- in either literal case, split the successful match at the boundary
    have key2 : ∀ lit tail : List Char, lit = 'h' :: tail →
        (∀ c ∈ tail, c ≠ ' ' ∧ c ≠ 'h') →
        ((stripLit lit su).isSome = true → False) →
        (stripLit lit (su ++ t)).isSome → False := by
      intro lit tail hlit htail hside hstrip
      rcases stripLit_split lit su t hstrip with h1 | ⟨lit', hne', heq, hs'⟩
      · exact hside h1
      · -- lit = su ++ lit' with su ≠ [] and lit' ≠ []
        rcases ht with rfl | ⟨r, rfl⟩ | ⟨r, rfl⟩
        · rcases lit' with _ | ⟨a, l2⟩
          · exact hne' rfl
          · rw [stripLit_nil_none (a :: l2) (by simp)] at hs'
            simp at hs'
        · rcases lit' with _ | ⟨a, l2⟩
          · exact hne' rfl
          · have ha : a = ' ' := stripLit_cons_head a ' ' l2 r hs'
            subst ha
            rcases su with _ | ⟨s0, su'⟩
            · exact hne rfl
            · rw [List.cons_append] at heq
              rw [hlit] at heq
              have htl : tail = su' ++ ' ' :: l2 := (List.cons.injEq _ _ _ _).mp heq |>.2
              have hmem : ' ' ∈ tail := by
                rw [htl]
                exact List.mem_append_right _ (List.mem_cons_self _ _)
              exact (htail ' ' hmem).1 rfl
        · rcases lit' with _ | ⟨a, l2⟩
          · exact hne' rfl
          · have ha : a = 'h' := stripLit_cons_head a 'h' l2 r hs'
            subst ha
            rcases su with _ | ⟨s0, su'⟩
            · exact hne rfl
            · rw [List.cons_append] at heq
              rw [hlit] at heq
              have htl : tail = su' ++ 'h' :: l2 := (List.cons.injEq _ _ _ _).mp heq |>.2
              have hmem : 'h' ∈ tail := by
                rw [htl]
                exact List.mem_append_right _ (List.mem_cons_self _ _)
              exact (htail 'h' hmem).2 rfl
    rcases hsome with h | h
    · exact key2 "https://".data "ttps://".data rfl (by decide)
        (fun hx => hsu (Or.inl hx)) h
    · exact key2 "http://".data "ttp://".data rfl (by decide)
        (fun hx => hsu (Or.inr hx)) h

theorem takeGap_exact : ∀ (g t : List Char),
    (∀ c ∈ g, isSepC c = false) →
    (∀ su, su ≠ [] → su <:+ g → schemeHead? (su ++ t) = none) →
    gapStop t = true →
    takeGap (g ++ t) = (g, t) := by
  intro g
  induction g with
  | nil =>
    intro t _ _ hstop
    cases t with
    | nil => rfl
    | cons c r =>
      simp only [List.nil_append, takeGap]
      rw [if_pos hstop]
  | cons ch g' ih =>
    intro t hsep hsuf hstop
    have h1 : isPyWs ch = false := by
      have hx := hsep ch (List.mem_cons_self _ _)
      unfold isSepC at hx
      exact (Bool.or_eq_false_iff.mp hx).1
    have h2 : schemeHead? ((ch :: g') ++ t) = none :=
      hsuf (ch :: g') (by simp) (List.suffix_refl _)
    have hstop0 : gapStop (ch :: (g' ++ t)) = false := by
      simp only [gapStop]
      rw [h1]
      rw [List.cons_append] at h2
      rw [h2]
      rfl
    rw [List.cons_append]
    simp only [takeGap]
    rw [if_neg (show ¬ gapStop (ch :: (g' ++ t)) = true by rw [hstop0]; simp)]
    have hrec := ih t (fun c hc => hsep c (List.mem_cons_of_mem _ hc))
      (fun su hne hsuf' => hsuf su hne (hsuf'.trans (List.suffix_cons _ _))) hstop
    rw [hrec]

theorem takeGap_sublen : ∀ l : List Char, (takeGap l).2.length ≤ l.length := by
  intro l
  induction l with
  | nil => simp [takeGap]
  | cons c rest ih =>
    unfold takeGap
    split_ifs with h
    · simp
    · simpa using Nat.le_succ_of_le ih

theorem urlFindAllF_fuel : ∀ (n : Nat) (cs : List Char) (f g : Nat),
    cs.length ≤ n → cs.length < f → cs.length < g →
    urlFindAllF f cs = urlFindAllF g cs := by
  intro n
  induction n with
  | zero =>
    intro cs f g hn hf hg
    have hcs : cs = [] := List.length_eq_zero.mp (Nat.le_zero.mp hn)
    subst hcs
    cases f with
    | zero => omega
    | succ f' =>
      cases g with
      | zero => omega
      | succ g' => rfl
  | succ m ih =>
    intro cs f g hn hf hg
    cases cs with
    | nil =>
      cases f with
      | zero => omega
      | succ f' =>
        cases g with
        | zero => omega
        | succ g' => rfl
    | cons c rest =>
      cases f with
      | zero => simp at hf
      | succ f' =>
        cases g with
        | zero => simp at hg
        | succ g' =>
          simp only [List.length_cons] at hn hf hg
          cases hsch : schemeHead? (c :: rest) with
          | some p =>
            rcases p with ⟨sch, after⟩
            simp only [urlFindAllF, hsch]
            have hlen : after.length < rest.length + 1 := by
              obtain ⟨heq, hlit⟩ := schemeHead_some_eq _ _ _ hsch
              have : (c :: rest).length = sch.length + after.length := by
                rw [heq, List.length_append]
              have hpos : 0 < sch.length := by
                rcases hlit with rfl | rfl <;> simp
              simp only [List.length_cons] at this
              omega
            have hsub := takeGap_sublen after
            have := ih (takeGap after).2 f' g' (by omega) (by omega) (by omega)
            rw [this]
          | none =>
            simp only [urlFindAllF, hsch]
            exact ih rest f' g' (by omega) (by omega) (by omega)

theorem cleanUrl_unpack (u : String) (h : cleanUrlB u = true) :
    (schemeHead? u.data).isSome = true
    ∧ (∀ c ∈ u.data, isSepC c = false)
    ∧ (∀ i, 0 < i → schemeHead? (u.data.drop i) = none) := by
  unfold cleanUrlB at h
  simp only [Bool.and_eq_true, List.all_eq_true] at h
  obtain ⟨⟨h1, h2⟩, h3⟩ := h
  refine ⟨h1, fun c hc => by simpa using h2 c hc, ?_⟩
  intro i hi
  by_cases hlt : i < u.data.length
  · have := h3 i (List.mem_range.mpr hlt)
    simp only [Bool.or_eq_true, beq_iff_eq] at this
    rcases this with h4 | h4
    · omega
    · exact Option.not_isSome_iff_eq_none.mp (by simp [h4])
  · rw [List.drop_eq_nil_of_le (Nat.le_of_not_lt hlt)]
    rfl

theorem urlFindAllF_step (u : String) (t : List Char)
    (hclean : cleanUrlB u = true)
    (ht : contShape t)
    (hstop : gapStop t = true) :
    urlFindAllF ((u.data ++ t).length + 1) (u.data ++ t) =
      u.data :: urlFindAllF (t.length + 1) t := by
  obtain ⟨hs1, hsep, hnos⟩ := cleanUrl_unpack u hclean
  obtain ⟨⟨sch, afterU⟩, hs⟩ := Option.isSome_iff_exists.mp hs1
  obtain ⟨hu, hlit⟩ := schemeHead_some_eq _ _ _ hs
  have hBig : schemeHead? (u.data ++ t) = some (sch, afterU ++ t) :=
    schemeHead_append _ _ _ _ hs
  obtain ⟨rest0, hhead⟩ := schemeHead_head u.data (sch, afterU) hs
  have hgap : takeGap (afterU ++ t) = (afterU, t) := by
    refine takeGap_exact afterU t ?_ ?_ hstop
    · intro c hc
      exact hsep c (by rw [hu]; exact List.mem_append_right _ hc)
    · intro su hne hsuf
      obtain ⟨pre, hpre⟩ := hsuf
      have hdrop : u.data.drop (sch ++ pre).length = su := by
        rw [hu, ← hpre, ← List.append_assoc]
        exact List.drop_left _ _
      have hpos : 0 < (sch ++ pre).length := by
        rcases hlit with rfl | rfl <;> simp [List.length_append]
      have hnone : schemeHead? su = none := by
        rw [← hdrop]
        exact hnos _ hpos
      exact schemeHead_suffix_none su t hnone hne ht
  rw [hhead] at hBig ⊢
  simp only [List.cons_append] at hBig ⊢
  simp only [urlFindAllF, hBig, hgap]
  congr 1
  · rw [← hu]
    exact hhead
  · refine urlFindAllF_fuel t.length t _ _ (Nat.le_refl _) ?_ (Nat.lt_succ_self _)
    simp only [List.length_cons, List.length_append]
    omega

theorem foldl_append_data : ∀ (us : List String) (init : String),
    (us.foldl (fun r s => r ++ s) init).data =
      init.data ++ (us.map String.data).flatten := by
  intro us
  induction us with
  | nil => intro init; simp
  | cons u rest ih =>
    intro init
    rw [List.foldl_cons, ih, String.data_append]
    simp [List.flatten_cons, List.append_assoc]

theorem join_data (us : List String) :
    (String.join us).data = (us.map String.data).flatten := by
  have : String.join us = us.foldl (fun r s => r ++ s) "" := rfl
  rw [this, foldl_append_data]
  rfl

theorem findall_join : ∀ us : List String, (∀ u ∈ us, cleanUrlB u = true) →
    urlFindAllF (((us.map String.data).flatten).length + 1) ((us.map String.data).flatten) =
      us.map String.data := by
  intro us
  induction us with
  | nil => intro _; rfl
  | cons u rest ih =>
    intro h
    have hu := h u (List.mem_cons_self _ _)
    have hrest := fun v hv => h v (List.mem_cons_of_mem _ hv)
    simp only [List.map_cons, List.flatten_cons]
    have ht : contShape ((rest.map String.data).flatten) := by
      cases rest with
      | nil => left; rfl
      | cons v vs =>
        right; right
        have hv := h v (by simp)
        obtain ⟨hs1, _, _⟩ := cleanUrl_unpack v hv
        obtain ⟨⟨sch, afterU⟩, hsv⟩ := Option.isSome_iff_exists.mp hs1
        obtain ⟨r0, hr0⟩ := schemeHead_head v.data (sch, afterU) hsv
        refine ⟨r0 ++ ((vs.map String.data).flatten), ?_⟩
        simp only [List.map_cons, List.flatten_cons, hr0, List.cons_append]
    have hstop : gapStop ((rest.map String.data).flatten) = true := by
      cases rest with
      | nil => rfl
      | cons v vs =>
        have hv := h v (by simp)
        obtain ⟨hs1, _, _⟩ := cleanUrl_unpack v hv
        obtain ⟨⟨sch, afterU⟩, hsv⟩ := Option.isSome_iff_exists.mp hs1
        have hsb : schemeHead? ((v.data ++ ((vs.map String.data).flatten))) =
            some (sch, afterU ++ ((vs.map String.data).flatten)) :=
          schemeHead_append _ _ _ _ hsv
        obtain ⟨r0, hr0⟩ := schemeHead_head v.data (sch, afterU) hsv
        simp only [List.map_cons, List.flatten_cons]
        rw [hr0] at hsb ⊢
        simp only [List.cons_append] at hsb ⊢
        simp only [gapStop, hsb]
        simp
    rw [urlFindAllF_step u ((rest.map String.data).flatten) hu ht hstop, ih hrest]

/-- The flattened (separator-collapsed) form of the comma-joined URL list. -/
def interSpaced : List String → List Char
  | [] => []
  | [u] => u.data
  | u :: rest => u.data ++ ' ' :: interSpaced rest

theorem findall_spaced : ∀ us : List String, (∀ u ∈ us, cleanUrlB u = true) →
    urlFindAllF ((interSpaced us).length + 1) (interSpaced us) =
      us.map String.data := by
  intro us
  induction us with
  | nil => intro _; rfl
  | cons u rest ih =>
    intro h
    have hu := h u (List.mem_cons_self _ _)
    have hrest := fun v hv => h v (List.mem_cons_of_mem _ hv)
    cases rest with
    | nil =>
      have hstep := urlFindAllF_step u [] hu (Or.inl rfl) rfl
      simp only [List.append_nil] at hstep
      simpa [interSpaced] using hstep
    | cons v vs =>
      have hshape : interSpaced (u :: v :: vs) = u.data ++ ' ' :: interSpaced (v :: vs) := rfl
      have ht : contShape (' ' :: interSpaced (v :: vs)) := Or.inr (Or.inl ⟨_, rfl⟩)
      have hstop : gapStop (' ' :: interSpaced (v :: vs)) = true := by
        simp [gapStop, isPyWs]
      rw [hshape, urlFindAllF_step u (' ' :: interSpaced (v :: vs)) hu ht hstop]
      have hskip : urlFindAllF ((' ' :: interSpaced (v :: vs)).length + 1)
          (' ' :: interSpaced (v :: vs)) =
            urlFindAllF ((interSpaced (v :: vs)).length + 1) (interSpaced (v :: vs)) := by
        have hnone : schemeHead? (' ' :: interSpaced (v :: vs)) = none := rfl
        simp only [List.length_cons, urlFindAllF, hnone]
      rw [hskip, ih hrest]
      rfl

theorem flattenGo_id : ∀ (b : Bool) (cs : List Char),
    (∀ c ∈ cs, isSepC c = false) → flattenGo b cs = cs := by
  intro b cs
  induction cs generalizing b with
  | nil => intro _; rfl
  | cons c rest ih =>
    intro h
    unfold flattenGo
    rw [h c (List.mem_cons_self _ _)]
    simp only [Bool.false_eq_true, if_false]
    rw [ih false (fun x hx => h x (List.mem_cons_of_mem _ hx))]

theorem flattenGo_append : ∀ (xs ys : List Char),
    (∀ c ∈ xs, isSepC c = false) →
    flattenGo false (xs ++ ys) = xs ++ flattenGo false ys := by
  intro xs
  induction xs with
  | nil => intro ys _; rfl
  | cons x xs' ih =>
    intro ys h
    have hx := h x (List.mem_cons_self _ _)
    rw [List.cons_append]
    conv_lhs => rw [flattenGo]
    rw [hx]
    simp only [Bool.false_eq_true, if_false]
    rw [ih ys (fun c hc => h c (List.mem_cons_of_mem _ hc))]
    rw [List.cons_append]

theorem flattenGo_true_head (cs : List Char)
    (h : cs = [] ∨ ∃ c r, cs = c :: r ∧ isSepC c = false) :
    flattenGo true cs = flattenGo false cs := by
  rcases h with rfl | ⟨c, r, rfl, hc⟩
  · rfl
  · unfold flattenGo
    rw [hc]
    simp

theorem cleanUrl_head_nonsep (u : String) (h : cleanUrlB u = true) :
    ∃ r, u.data = 'h' :: r := by
  obtain ⟨hs1, _, _⟩ := cleanUrl_unpack u h
  obtain ⟨p, hp⟩ := Option.isSome_iff_exists.mp hs1
  exact schemeHead_head u.data p hp

/-- The concatenated form of the comma-joined URL list. -/
def interComma : List String → List Char
  | [] => []
  | [u] => u.data
  | u :: rest => u.data ++ ',' :: interComma rest

theorem interCommaData : ∀ us : List String,
    ((List.intersperse "," us).map String.data).flatten = interComma us := by
  intro us
  induction us with
  | nil => rfl
  | cons u rest ih =>
    cases rest with
    | nil => simp [List.intersperse_single, interComma]
    | cons v vs =>
      have hint : List.intersperse "," (u :: v :: vs) =
          u :: "," :: List.intersperse "," (v :: vs) := rfl
      rw [hint]
      simp only [List.map_cons, List.flatten_cons]
      rw [ih]
      have : interComma (u :: v :: vs) = u.data ++ ',' :: interComma (v :: vs) := rfl
      rw [this]
      simp

theorem interComma_head : ∀ (v : String) (vs : List String),
    cleanUrlB v = true → ∃ r, interComma (v :: vs) = 'h' :: r := by
  intro v vs hv
  obtain ⟨r, hr⟩ := cleanUrl_head_nonsep v hv
  cases vs with
  | nil => exact ⟨r, by simp [interComma, hr]⟩
  | cons w ws =>
    refine ⟨r ++ ',' :: interComma (w :: ws), ?_⟩
    have : interComma (v :: w :: ws) = v.data ++ ',' :: interComma (w :: ws) := rfl
    rw [this, hr]
    rfl

theorem interSpaced_cons (u v : String) (vs : List String) :
    interSpaced (u :: v :: vs) = u.data ++ ' ' :: interSpaced (v :: vs) := rfl

theorem flatten_comma_form : ∀ us : List String, (∀ u ∈ us, cleanUrlB u = true) →
    flattenGo false (interComma us) = interSpaced us := by
  intro us
  induction us with
  | nil => intro _; rfl
  | cons u rest ih =>
    intro h
    have hu := h u (List.mem_cons_self _ _)
    have hsep : ∀ c ∈ u.data, isSepC c = false := (cleanUrl_unpack u hu).2.1
    cases rest with
    | nil =>
      have h1 : interComma [u] = u.data := rfl
      have h2 : interSpaced [u] = u.data := rfl
      rw [h1, h2]
      exact flattenGo_id false u.data hsep
    | cons v vs =>
      have h1 : interComma (u :: v :: vs) = u.data ++ ',' :: interComma (v :: vs) := rfl
      rw [h1, flattenGo_append _ _ hsep]
      have h2 : flattenGo false (',' :: interComma (v :: vs)) =
          ' ' :: flattenGo true (interComma (v :: vs)) := by
        conv_lhs => rw [flattenGo]
        rfl
      rw [h2]
      have hv := h v (by simp)
      obtain ⟨r, hr⟩ := interComma_head v vs hv
      rw [flattenGo_true_head _ (Or.inr ⟨'h', r, hr, rfl⟩)]
      rw [ih (fun w hw => h w (List.mem_cons_of_mem _ hw))]
      rw [interSpaced_cons]

theorem dropWhile_all_false (l : List Char) (h : ∀ c ∈ l, isPyWs c = false) :
    l.dropWhile isPyWs = l := by
  cases l with
  | nil => rfl
  | cons c r =>
    rw [List.dropWhile_cons, h c (List.mem_cons_self _ _)]
    simp

theorem pyStrip_id (s : String) (h : ∀ c ∈ s.data, isPyWs c = false) :
    pyStrip s = s := by
  unfold pyStrip
  rw [dropWhile_all_false _ h]
  rw [dropWhile_all_false _ (by
    intro c hc
    exact h c (List.mem_reverse.mp hc))]
  rw [List.reverse_reverse]

theorem cleanUrl_ne_empty (u : String) (h : cleanUrlB u = true) : u ≠ "" := by
  obtain ⟨r, hr⟩ := cleanUrl_head_nonsep u h
  intro hcon
  subst hcon
  simp at hr

theorem cleanUrl_strip_id (u : String) (h : cleanUrlB u = true) : pyStrip u = u := by
  refine pyStrip_id u ?_
  intro c hc
  have := (cleanUrl_unpack u h).2.1 c hc
  unfold isSepC at this
  exact (Bool.or_eq_false_iff.mp this).1

theorem dedupLoop_eq : ∀ (us seen : List String),
    (∀ u ∈ us, pyStrip u = u ∧ u ≠ "") →
    dedupLoop us seen = dedupFirstAux seen us := by
  intro us
  induction us with
  | nil => intro seen _; rfl
  | cons u rest ih =>
    intro seen h
    obtain ⟨hstr, hne⟩ := h u (List.mem_cons_self _ _)
    have hrest := fun v hv => h v (List.mem_cons_of_mem _ hv)
    unfold dedupLoop dedupFirstAux
    rw [hstr]
    by_cases hc : u ∈ seen
    · rw [if_neg (by
        intro hcon
        exact hcon.2 (List.elem_iff.mpr hc)), if_pos hc]
      exact ih seen hrest
    · rw [if_pos ⟨hne, fun h' => hc (List.elem_iff.mp h')⟩, if_neg hc]
      rw [ih (u :: seen) hrest]

theorem dedupFirstAux_spec : ∀ (us seen : List String),
    (dedupFirstAux seen us).Nodup ∧ ∀ x ∈ dedupFirstAux seen us, x ∉ seen := by
  intro us
  induction us with
  | nil =>
    intro seen
    refine ⟨by simp [dedupFirstAux], ?_⟩
    intro x hx
    simp [dedupFirstAux] at hx
  | cons u rest ih =>
    intro seen
    unfold dedupFirstAux
    by_cases hc : u ∈ seen
    · rw [if_pos hc]
      exact ih seen
    · rw [if_neg hc]
      obtain ⟨hnd, hmem⟩ := ih (u :: seen)
      refine ⟨List.nodup_cons.mpr ⟨?_, hnd⟩, ?_⟩
      · intro hcon
        exact hmem u hcon (List.mem_cons_self _ _)
      · intro x hx
        rcases List.mem_cons.mp hx with rfl | hx'
        · exact hc
        · intro hcon
          exact hmem x hx' (List.mem_cons_of_mem _ hcon)

theorem interComma_ws : ∀ us : List String, (∀ u ∈ us, cleanUrlB u = true) →
    ∀ c ∈ interComma us, isPyWs c = false := by
  intro us
  induction us with
  | nil => intro _ c hc; simp [interComma] at hc
  | cons u rest ih =>
    intro h c hc
    have husep : ∀ c ∈ u.data, isSepC c = false :=
      (cleanUrl_unpack u (h u (List.mem_cons_self _ _))).2.1
    have huws : ∀ c ∈ u.data, isPyWs c = false := by
      intro c hc
      have := husep c hc
      unfold isSepC at this
      exact (Bool.or_eq_false_iff.mp this).1
    cases rest with
    | nil =>
      have : interComma [u] = u.data := rfl
      rw [this] at hc
      exact huws c hc
    | cons v vs =>
      have hform : interComma (u :: v :: vs) = u.data ++ ',' :: interComma (v :: vs) := rfl
      rw [hform] at hc
      rcases List.mem_append.mp hc with h1 | h1
      · exact huws c h1
      · rcases List.mem_cons.mp h1 with rfl | h2
        · rfl
        · exact ih (fun w hw => h w (List.mem_cons_of_mem _ hw)) c h2
/-! ### Claim theorems -/


set_option maxRecDepth 100000 in
/-- C1: on the sample listing page (one card: name "Sample Clinic", rating text
"4.5", review text "120", one menu item priced ¥3,000, no hours table) with
detail-following disabled, the assembler emits exactly one clinic record with
rating 4.5, review count 120 and notes "rating=4.5, reviews=120, hours=0"; and
in general the notes string is the `", "`-join of the applicable fragments in
the fixed order rating, reviews, menus, hours, an absent fact contributing no
fragment at all. -/
theorem C1_assembler_notes :
    ((processPage envOff "TS" "https://pages.example/list" docC1).1.map
        (fun r => (r.rating, r.reviews_count, r.notes)) =
      [(some "4.5", some 120, "rating=4.5, reviews=120, hours=0")])
    ∧ ∀ c : Card, buildNotes c =
        String.intercalate ", " (List.filterMap id
          [c.rating.map (fun r => "rating=" ++ r),
           c.reviews.map (fun n => "reviews=" ++ toString n),
           if c.menus.length = 0 then some "menus=0" else none,
           if c.hours.length = 0 then some "hours=0" else none]) := by
  constructor
  · decide
  · intro c
    rcases c with ⟨rank, name, curl, rating, reviews, s1, s2, im, fe, ac, hours, menus⟩
    cases rating <;> cases reviews <;> cases menus <;> cases hours <;>
      simp [buildNotes, List.filterMap]

set_option maxRecDepth 400000 in
/-- C2: every hours-map entry of the round-trip candidate (card with explicit
hours 月 ↦ "10:00〜19:00") yields exactly one hours row with day 月, open
"10:00", close "19:00" and the unmodified raw text; in general
`split_open_close` returns the two groups of the first (leftmost) match of
the two-token time pattern, returns a pair of empty strings when no position
matches, and any match consists of two `H:MM`-or-`HH:MM` tokens occurring in
the raw text in order, separated by a newline-free gap. -/
theorem C2_hours_rows :
    ((processPage envOff "TS" "https://pages.example/list2" docC2).2.2 =
        [⟨"TS", "", "月", "10:00", "19:00", "10:00〜19:00"⟩])
    ∧ (∀ (raw : String) (i : Nat) (o c : List Char),
        matchAt raw.data i = some (o, c) → (∀ k, k < i → matchAt raw.data k = none) →
        split_open_close raw = (String.mk o, String.mk c))
    ∧ (∀ raw : String, (∀ i, i < raw.data.length → matchAt raw.data i = none) →
        split_open_close raw = ("", ""))
    ∧ (∀ (cs : List Char) (i : Nat) (o c : List Char), matchAt cs i = some (o, c) →
        isHMM o = true ∧ isHMM c = true ∧
        ∃ g r, cs.drop i = o ++ g ++ c ++ r ∧ g.all (fun ch => ch ≠ '\n') = true) := by
  refine ⟨by decide, ?_, ?_, ?_⟩
  · intro raw i o c hm hk
    by_cases hraw : raw = ""
    · subst hraw
      simp [matchAt, List.drop_nil, timeToken?] at hm
    · simp only [split_open_close, if_neg hraw, searchPair_first raw.data i o c hm hk]
  · intro raw h
    have hall : ∀ i, matchAt raw.data i = none := by
      intro i
      by_cases hi : i < raw.data.length
      · exact h i hi
      · exact matchAt_ge _ _ (Nat.le_of_not_lt hi)
    by_cases hraw : raw = ""
    · simp [split_open_close, hraw]
    · simp only [split_open_close, if_neg hraw, searchPair_none raw.data hall]
  · intro cs i o c hm
    unfold matchAt at hm
    cases htok : timeToken? (cs.drop i) with
    | none => rw [htok] at hm; simp at hm
    | some p =>
      rcases p with ⟨o', after⟩
      simp only [htok] at hm
      cases hcl : findClose after with
      | none => simp [hcl] at hm
      | some ctok =>
        simp only [hcl, Option.map_some] at hm
        obtain ⟨rfl, rfl⟩ : o' = o ∧ ctok = c := by
          constructor <;> [exact congrArg Prod.fst (Option.some.inj hm);
            exact congrArg Prod.snd (Option.some.inj hm)]
        obtain ⟨heq, hmo⟩ := timeToken_eq _ _ _ htok
        obtain ⟨hmc, g, r, hgr, hall⟩ := findClose_shape _ _ hcl
        refine ⟨hmo, hmc, g, r, ?_, hall⟩
        rw [heq, hgr]
        simp [List.append_assoc]

set_option maxRecDepth 100000 in
/-- Witness for C2 at the round-trip raw text and at a no-match text. -/
theorem C2_hours_rows_witness :
    split_open_close "10:00〜19:00" = ("10:00", "19:00")
    ∧ split_open_close "定休日" = ("", "") :=
  ⟨C2_hours_rows.2.1 "10:00〜19:00" 0 "10:00".data "19:00".data (by decide)
      (fun k hk => absurd hk (Nat.not_lt_zero k)),
   C2_hours_rows.2.2.1 "定休日" (by decide)⟩

set_option maxRecDepth 100000 in
/-- C3 counterexample: a card whose `table.table` row has the non-weekday
first cell "Open" and at least two cells; the card-scoped parse discards the
row (the candidate's hours map stays empty), refuting the claim that the
card-scoped search accepts such rows unconditionally. -/
theorem C3_counterexample :
    containsWeekday "Open" = false
    ∧ parse_hours_table (some tableC3) = []
    ∧ (parse_card envOff cardC3 "").hours = [] := by
  refine ⟨by decide, by decide, by decide⟩

/-- C3 (amended): rows with at least two cells whose first-cell text is empty
or lacks a weekday token are discarded in BOTH code paths — the card-scoped
search calls the same filtering table parser used by the page-wide search, so
every recorded day label is nonempty and contains a weekday token. -/
theorem C3_weekday_filter_both_paths :
    (∀ (t : Node) (p : String × String), p ∈ parse_hours_table (some t) →
        p.1 ≠ "" ∧ containsWeekday p.1 = true)
    ∧ (∀ (env : Env) (card : Node) (base_url : String),
        (parse_card env card base_url).hours =
          parse_hours_table (card.selectOne selTableTable)) := by
  constructor
  · intro t p hp
    unfold parse_hours_table at hp
    exact hoursStep_mem _ [] (by simp) p hp
  · intro env card base_url
    rfl

/-- Witness for C3 at the concrete weekday row of the round-trip table. -/
theorem C3_weekday_filter_both_paths_witness :
    ("月" : String) ≠ "" ∧ containsWeekday "月" = true :=
  C3_weekday_filter_both_paths.1 tableC2 ("月", "10:00〜19:00") (by decide)

/-- C4: for every list of well-formed URLs (scheme-prefixed, free of
whitespace, commas and embedded scheme markers), the Target Resolver resolves
their direct concatenation to the same list as their comma-separated form,
and the result is the first-occurrence-wins deduplication of the input,
hence free of duplicates. -/
theorem C4_url_split_equiv :
    ∀ us : List String, (∀ u ∈ us, cleanUrlB u = true) →
      load_urls_from_env (String.join us) =
          load_urls_from_env (String.join (List.intersperse "," us))
        ∧ load_urls_from_env (String.join us) = dedupFirst us
        ∧ (load_urls_from_env (String.join us)).Nodup := by
  intro us h
  have htail : ∀ u ∈ us, pyStrip u = u ∧ u ≠ "" := fun u hu =>
    ⟨cleanUrl_strip_id u (h u hu), cleanUrl_ne_empty u (h u hu)⟩
  have hmm : (us.map String.data).map String.mk = us := by
    rw [List.map_map]
    have hcomp : (String.mk ∘ String.data) = id := funext (fun u => rfl)
    rw [hcomp, List.map_id]
  have hjoin : load_urls_from_env (String.join us) = dedupFirst us := by
    have hchars : ∀ c ∈ (String.join us).data, isSepC c = false := by
      rw [join_data]
      intro c hc
      rw [List.mem_flatten] at hc
      obtain ⟨l, hl, hcl⟩ := hc
      rw [List.mem_map] at hl
      obtain ⟨u, hu, rfl⟩ := hl
      exact (cleanUrl_unpack u (h u hu)).2.1 c hcl
    have hstrip : pyStrip (String.join us) = String.join us :=
      pyStrip_id _ (fun c hc => by
        have hx := hchars c hc
        unfold isSepC at hx
        exact (Bool.or_eq_false_iff.mp hx).1)
    have hflat : flattenGo false (pyStrip (String.join us)).data =
        (us.map String.data).flatten := by
      rw [hstrip, flattenGo_id false _ hchars, join_data]
    show dedupLoop ((urlFindAllF
        ((flattenGo false (pyStrip (String.join us)).data).length + 1)
        (flattenGo false (pyStrip (String.join us)).data)).map String.mk) [] =
      dedupFirst us
    rw [hflat, findall_join us h, hmm, dedupLoop_eq us [] htail]
    rfl
  have hcomma : load_urls_from_env (String.join (List.intersperse "," us)) =
      dedupFirst us := by
    have hdata : (String.join (List.intersperse "," us)).data = interComma us := by
      rw [join_data, interCommaData]
    have hstrip : pyStrip (String.join (List.intersperse "," us)) =
        String.join (List.intersperse "," us) := by
      refine pyStrip_id _ ?_
      rw [hdata]
      exact interComma_ws us h
    have hflat : flattenGo false (pyStrip (String.join (List.intersperse "," us))).data =
        interSpaced us := by
      rw [hstrip, hdata]
      exact flatten_comma_form us h
    show dedupLoop ((urlFindAllF
        ((flattenGo false (pyStrip (String.join (List.intersperse "," us))).data).length + 1)
        (flattenGo false (pyStrip (String.join (List.intersperse "," us))).data)).map
          String.mk) [] = dedupFirst us
    rw [hflat, findall_spaced us h, hmm, dedupLoop_eq us [] htail]
    rfl
  refine ⟨hjoin.trans hcomma.symm, hjoin, ?_⟩
  rw [hjoin]
  exact (dedupFirstAux_spec us []).1

set_option maxRecDepth 1000000 in
/-- Witness for C4 at the two example URLs of the specification. -/
theorem C4_url_split_equiv_witness :
    load_urls_from_env (String.join ["https://a.example/1", "https://a.example/2"]) =
        load_urls_from_env (String.join (List.intersperse ","
          ["https://a.example/1", "https://a.example/2"]))
    ∧ load_urls_from_env (String.join ["https://a.example/1", "https://a.example/2"]) =
        dedupFirst ["https://a.example/1", "https://a.example/2"]
    ∧ (load_urls_from_env
        (String.join ["https://a.example/1", "https://a.example/2"])).Nodup :=
  C4_url_split_equiv ["https://a.example/1", "https://a.example/2"] (by decide)

/-- C5: a fetched page with zero card elements yields exactly one fallback
candidate whose name is the primary heading text or, failing that, the page
title, whose clinic_url is the page's own URL and whose remaining fields are
their empty defaults; and every page yields at least one candidate. -/
theorem C5_fallback_candidate :
    (∀ (env : Env) (doc : Node) (page_url : String),
      (doc.select selCard).isEmpty = true →
        parse_page env doc page_url =
          [⟨none,
            (if cleanGet (doc.selectOne selH1) ≠ "" then cleanGet (doc.selectOne selH1)
             else clean_text (match findFirstTag doc "title" with
               | some t => (t.string?).getD ""
               | none => "")),
            page_url, none, none, "", "", [], [], "", [], []⟩])
    ∧ ∀ (env : Env) (doc : Node) (page_url : String),
        1 ≤ (parse_page env doc page_url).length := by
  constructor
  · intro env doc page_url h
    have h' : doc.select selCard = [] := by
      cases hsel : doc.select selCard with
      | nil => rfl
      | cons a l => rw [hsel] at h; simp [List.isEmpty] at h
    simp [parse_page, h']
  · intro env doc page_url
    unfold parse_page
    cases hsel : (doc.select selCard).map (fun c => parse_card env c page_url) with
    | nil => simp
    | cons a l => simp

set_option maxRecDepth 100000 in
/-- Witness for C5 at a concrete card-free page. -/
theorem C5_fallback_candidate_witness :
    parse_page envOff docC5 "https://p.example/" =
      [⟨none, "Heading", "https://p.example/", none, none, "", "", [], [], "", [], []⟩]
    ∧ 1 ≤ (parse_page envOff docC5 "https://p.example/").length :=
  ⟨(C5_fallback_candidate.1 envOff docC5 "https://p.example/" (by decide)).trans
      (by decide),
   C5_fallback_candidate.2 envOff docC5 "https://p.example/"⟩

/-- C6 counterexample: a 304 response — a non-2xx status — is returned as a
success on the first attempt, with no retry and no error, refuting the claim
that any non-2xx HTTP status is treated as a failure of the attempt. -/
theorem C6_counterexample :
    fetch (fun _ => .resp 304 "not modified") =
      ⟨.ok "not modified", [], 1⟩ := by decide

/-- C6 (amended): the Fetcher attempts the request at most 3 times, waits
`SLEEP_BETWEEN × attempt_number` after each failed attempt (linearly
increasing), treats any HTTP status in 400–599 — rather than any non-2xx —
as a failure of that attempt rather than a distinct error kind, and after
exhausting all retries raises exactly the last attempt's underlying failure. -/
theorem C6_retry_behavior :
    ∀ oracle : Nat → HttpOutcome,
      (fetch oracle).attempts ≤ RETRY
      ∧ ((fetch oracle).sleeps =
          (List.range (if (fetch oracle).outcome.isOk then (fetch oracle).attempts - 1
            else (fetch oracle).attempts)).map (fun k => SLEEP_BETWEEN * (k + 1)))
      ∧ (∀ e, (fetch oracle).outcome = .error e →
          (fetch oracle).attempts = RETRY ∧ attemptOnce (oracle (RETRY - 1)) = .error e)
      ∧ (∀ s b, 400 ≤ s → s < 600 → attemptOnce (.resp s b) = .error (.httpError s))
      ∧ (∀ e, attemptOnce (.exc e) = .error (.exc e)) := by
  intro oracle
  have e4 : ∀ s b, 400 ≤ s → s < 600 → attemptOnce (.resp s b) = .error (.httpError s) := by
    intro s b h1 h2
    simp [attemptOnce, h1, h2]
  have e5 : ∀ e, attemptOnce (.exc e) = .error (.exc e) := fun _ => rfl
  have hfe : fetch oracle = fetchLoop oracle 3 0 none [] 0 := rfl
  rcases h0 : attemptOnce (oracle 0) with e0 | b0
  · rcases h1 : attemptOnce (oracle 1) with e1 | b1
    · rcases h2 : attemptOnce (oracle 2) with e2 | b2
      · have hr : fetch oracle = ⟨.error e2, [2, 4, 6], 3⟩ := by
          rw [hfe]; simp [fetchLoop, h0, h1, h2, SLEEP_BETWEEN]
        rw [hr]
        refine ⟨by simp [RETRY], by simp [Except.isOk, Except.toBool, SLEEP_BETWEEN, List.range_succ], ?_, e4, e5⟩
        intro e he
        simp at he
        subst he
        exact ⟨rfl, h2⟩
      · have hr : fetch oracle = ⟨.ok b2, [2, 4], 3⟩ := by
          rw [hfe]; simp [fetchLoop, h0, h1, h2, SLEEP_BETWEEN]
        rw [hr]
        refine ⟨by simp [RETRY], by simp [Except.isOk, Except.toBool, SLEEP_BETWEEN, List.range_succ], ?_, e4, e5⟩
        intro e he
        simp at he
    · have hr : fetch oracle = ⟨.ok b1, [2], 2⟩ := by
        rw [hfe]; simp [fetchLoop, h0, h1, SLEEP_BETWEEN]
      rw [hr]
      refine ⟨by simp [RETRY], by simp [Except.isOk, Except.toBool, SLEEP_BETWEEN, List.range_succ], ?_, e4, e5⟩
      intro e he
      simp at he
  · have hr : fetch oracle = ⟨.ok b0, [], 1⟩ := by
      rw [hfe]; simp [fetchLoop, h0]
    rw [hr]
    refine ⟨by simp [RETRY], by simp [Except.isOk, Except.toBool, SLEEP_BETWEEN, List.range_succ], ?_, e4, e5⟩
    intro e he
    simp at he

/-- Witness for C6 at an always-500 oracle, a 404 response and a transport
exception. -/
theorem C6_retry_behavior_witness :
    ((fetch (fun _ => HttpOutcome.resp 500 "e")).attempts = RETRY
      ∧ attemptOnce (HttpOutcome.resp 500 "e") = .error (.httpError 500))
    ∧ attemptOnce (HttpOutcome.resp 404 "nf") = .error (.httpError 404)
    ∧ attemptOnce (HttpOutcome.exc "timeout") = .error (.exc "timeout") :=
  ⟨(C6_retry_behavior (fun _ => HttpOutcome.resp 500 "e")).2.2.1
      (.httpError 500) (by decide),
   (C6_retry_behavior (fun _ => HttpOutcome.resp 404 "nf")).2.2.2.1 404 "nf"
      (by decide) (by decide),
   (C6_retry_behavior (fun _ => HttpOutcome.exc "x")).2.2.2.2 "timeout"⟩

/-- A candidate with nonempty menus and hours (no completion needed). -/
def cardFullC7 : Card :=
  ⟨none, "n", "", none, none, "", "", [], [], "", [("月", "10:00-19:00")],
    [⟨"m", none, "", "", false, "", ""⟩]⟩

/-- A candidate with empty menus and hours (completion needed). -/
def cardEmptyC7 : Card := ⟨none, "n", "", none, none, "", "", [], [], "", [], []⟩

/-- Environment whose fetch always succeeds with the card-free page. -/
def envOkC7 : Env := ⟨false, fun _ => .ok docC5⟩

/-- C7: the Completion Engine runs only for candidates with empty menus or
empty hours; it fetches the candidate's clinic URL exactly when that URL
differs from the listing page (reusing the listing content when they are
equal), swallows a fetch failure leaving the candidate unchanged, re-runs the
extractors on the fetched document merging only non-empty results, and the
per-page assembly emits one clinics row per candidate regardless of
completion outcomes. -/
theorem C7_completion :
    (∀ (env : Env) (sourceUrl : String) (listingDoc : Node) (clinicUrl : String) (c : Card),
      ¬ (c.menus = [] ∨ c.hours = []) →
        completeCardL env sourceUrl listingDoc clinicUrl c = (c, []))
    ∧ (∀ (env : Env) (sourceUrl : String) (listingDoc : Node) (clinicUrl : String) (c : Card),
        (c.menus = [] ∨ c.hours = []) → clinicUrl ≠ sourceUrl →
          (completeCardL env sourceUrl listingDoc clinicUrl c).2 = [clinicUrl])
    ∧ (∀ (env : Env) (sourceUrl : String) (listingDoc : Node) (clinicUrl : String) (c : Card),
        clinicUrl = sourceUrl →
          (completeCardL env sourceUrl listingDoc clinicUrl c).2 = [])
    ∧ (∀ (env : Env) (sourceUrl : String) (listingDoc : Node) (clinicUrl : String)
          (c : Card) (e : String),
        clinicUrl ≠ sourceUrl → env.fetchDoc clinicUrl = .error e →
          completeCard env sourceUrl listingDoc clinicUrl c = c)
    ∧ (∀ (env : Env) (sourceUrl : String) (listingDoc : Node) (clinicUrl : String)
          (c : Card) (d : Node),
        (c.menus = [] ∨ c.hours = []) → clinicUrl ≠ sourceUrl →
          env.fetchDoc clinicUrl = .ok d →
          completeCard env sourceUrl listingDoc clinicUrl c =
            mergeCompletion env clinicUrl c.menus.isEmpty c.hours.isEmpty d c)
    ∧ (∀ (env : Env) (clinicUrl : String) (needM needH : Bool) (d : Node) (c : Card),
        mergeCompletion env clinicUrl needM needH d c =
          { c with
            menus := if needM && !(extract_menus_from_scope env d clinicUrl).isEmpty
                     then extract_menus_from_scope env d clinicUrl else c.menus,
            hours := if needH && !(extract_hours_from_scope d).isEmpty
                     then extract_hours_from_scope d else c.hours })
    ∧ (∀ (env : Env) (ts sourceUrl : String) (doc : Node),
        (processPage env ts sourceUrl doc).1.length =
          (parse_page env doc sourceUrl).length) := by
  have hmerge : ∀ (env : Env) (clinicUrl : String) (needM needH : Bool) (d : Node) (c : Card),
      mergeCompletion env clinicUrl needM needH d c =
        { c with
          menus := if needM && !(extract_menus_from_scope env d clinicUrl).isEmpty
                   then extract_menus_from_scope env d clinicUrl else c.menus,
          hours := if needH && !(extract_hours_from_scope d).isEmpty
                   then extract_hours_from_scope d else c.hours } := by
    intro env clinicUrl needM needH d c
    rcases c with ⟨rank, name, curl, rating, reviews, s1, s2, im, fe, ac, hours, menus⟩
    cases needM <;> cases needH <;>
      by_cases hm : (extract_menus_from_scope env d clinicUrl).isEmpty <;>
      by_cases hh : (extract_hours_from_scope d).isEmpty <;>
      simp [mergeCompletion, hm, hh]
  have hempty : ∀ c : Card, (c.menus.isEmpty || c.hours.isEmpty) = true ↔
      (c.menus = [] ∨ c.hours = []) := by
    intro c
    simp [List.isEmpty_iff]
  refine ⟨?_, ?_, ?_, ?_, ?_, hmerge, ?_⟩
  · intro env sourceUrl listingDoc clinicUrl c hne
    unfold completeCardL
    rw [if_neg]
    intro hcon
    exact hne ((hempty c).mp hcon)
  · intro env sourceUrl listingDoc clinicUrl c hneed hne
    unfold completeCardL
    rw [if_pos ((hempty c).mpr hneed), if_pos hne]
    cases env.fetchDoc clinicUrl <;> rfl
  · intro env sourceUrl listingDoc clinicUrl c heq
    unfold completeCardL
    by_cases hneed : (c.menus.isEmpty || c.hours.isEmpty) = true
    · rw [if_pos hneed, if_neg (by simpa using heq)]
    · rw [if_neg hneed]
  · intro env sourceUrl listingDoc clinicUrl c e hne herr
    unfold completeCard completeCardL
    by_cases hneed : (c.menus.isEmpty || c.hours.isEmpty) = true
    · rw [if_pos hneed, if_pos hne, herr]
    · rw [if_neg hneed]
  · intro env sourceUrl listingDoc clinicUrl c d hneed hne hok
    unfold completeCard completeCardL
    rw [if_pos ((hempty c).mpr hneed), if_pos hne, hok]
  · intro env ts sourceUrl doc
    simp [processPage]

set_option maxRecDepth 100000 in
/-- Witness for C7 at concrete candidates, URLs and oracles. -/
theorem C7_completion_witness :
    completeCardL envOff "https://s.example/" docC5 "https://d.example/" cardFullC7 =
        (cardFullC7, [])
    ∧ (completeCardL envOff "https://s.example/" docC5 "https://d.example/"
        cardEmptyC7).2 = ["https://d.example/"]
    ∧ (completeCardL envOff "https://s.example/" docC5 "https://s.example/"
        cardEmptyC7).2 = []
    ∧ completeCard envOff "https://s.example/" docC5 "https://d.example/" cardEmptyC7 =
        cardEmptyC7
    ∧ completeCard envOkC7 "https://s.example/" docC5 "https://d.example/" cardEmptyC7 =
        mergeCompletion envOkC7 "https://d.example/" cardEmptyC7.menus.isEmpty
          cardEmptyC7.hours.isEmpty docC5 cardEmptyC7 :=
  ⟨C7_completion.1 envOff _ docC5 _ cardFullC7 (by decide),
   C7_completion.2.1 envOff _ docC5 _ cardEmptyC7 (Or.inl rfl) (by decide),
   C7_completion.2.2.1 envOff _ docC5 _ cardEmptyC7 rfl,
   C7_completion.2.2.2.1 envOff _ docC5 _ cardEmptyC7 "network disabled"
     (by decide) rfl,
   C7_completion.2.2.2.2.1 envOkC7 _ docC5 _ cardEmptyC7 docC5 (Or.inl rfl)
     (by decide) rfl⟩

set_option maxRecDepth 100000 in
/-- C8: on the sample menu anchor the extracted menu item has price_jpy 3000
and the unmodified price_raw "¥3,000"; `parse_price` parses the
currency-prefixed numeric token with thousands separators stripped, and a
price text with no currency-prefixed numeric token yields no price. -/
theorem C8_price_parse :
    ((extract_menus_from_scope envOff menuScopeC8 "https://b.example/").map
        (fun m => (m.price_jpy, m.price_raw)) = [(some 3000, "¥3,000")])
    ∧ parse_price "¥3,000" = some 3000
    ∧ parse_price "¥12,345" = some 12345
    ∧ (∀ s : String, hasYenNum s = false → parse_price s = none) := by
  refine ⟨by decide, by decide, by decide, ?_⟩
  intro s h
  unfold parse_price
  apply yenScan_none
  intro i hi
  unfold hasYenNum at h
  rw [List.any_eq_false] at h
  exact Bool.eq_false_iff.mpr (h i (List.mem_range.mpr hi))

/-- Witness for C8 at a price text lacking a ¥-prefixed token. -/
theorem C8_price_parse_witness : parse_price "3000円" = none :=
  C8_price_parse.2.2.2 "3000円" (by decide)

set_option maxRecDepth 1000000 in
/-- C9 counterexample: a scope with two tables both containing 月, where the
first table's cleaned text keeps its weekday token beyond the 200-character
truncation window; the recorded value comes from the SECOND table, refuting
the claim that the first table in document order always wins. -/
theorem C9_counterexample :
    ((findAllTag scopeC9 "table").map
        (fun t => dictLookup (parse_hours_table (some t)) "月")) =
      [some "09:00-17:00", some "10:00-19:00"]
    ∧ dictLookup (extract_hours_from_scope scopeC9) "月" = some "10:00-19:00" := by
  refine ⟨by decide, by decide⟩

/-- C9 (amended): in page-wide hours extraction the value recorded for a day
is the first-occurrence lookup over the tables that pass the truncated
weekday prefilter, concatenated in document order — so among the tables the
extractor actually processes, the first one containing the day wins and is
never overwritten by a later table. -/
theorem C9_first_kept_table_wins :
    ∀ (scope : Node) (day : String),
      dictLookup (extract_hours_from_scope scope) day =
        dictLookup (((findAllTag scope "table").filter (fun t =>
            containsWeekday ((clean_text (t.getText "")).take 200))).flatMap
          (fun t => parse_hours_table (some t))) day := by
  intro scope day
  unfold extract_hours_from_scope
  rw [lookup_foldl_merge]
  simp [dictLookup, optOr]

/-- C10: the existence probe returns `false` on any transport failure (HEAD
exception, or GET exception after a 403/405 HEAD) instead of propagating it,
and sequential-ID discovery visits every candidate id from 1 to END_ID,
keeping exactly those the probe accepts — a probe failure excludes one URL
and never aborts the loop. -/
theorem C10_probe_total :
    (∀ (e : String) (g : HttpOutcome), check_url_exists (.exc e) g = false)
    ∧ (∀ (s : Nat) (b e : String), (s = 403 ∨ s = 405) →
        check_url_exists (.resp s b) (.exc e) = false)
    ∧ (∀ (endIdStr : String) (probe : String → Bool) (urls : List String),
        build_target_urls_auto endIdStr probe = .ok urls →
          urls = ((List.range' 1 (digitsToNat endIdStr.data)).map
            (fun cid => clinicsBase ++ "/" ++ format04 cid)).filter probe) := by
  refine ⟨fun e g => rfl, ?_, ?_⟩
  · intro s b e hs
    rcases hs with rfl | rfl <;> simp [check_url_exists]
  · intro endIdStr probe urls h
    unfold build_target_urls_auto at h
    split at h
    · injection h with h
      rw [← h, foldl_keep_eq_filter]
      simp
    · exact absurd h (by simp)

/-- Witness for C10 at concrete outcomes and a two-id discovery run. -/
theorem C10_probe_total_witness :
    check_url_exists (.exc "timeout") (.resp 200 "") = false
    ∧ check_url_exists (.resp 403 "") (.exc "reset") = false
    ∧ ([] : List String) =
        ((List.range' 1 (digitsToNat "0002".data)).map
          (fun cid => clinicsBase ++ "/" ++ format04 cid)).filter (fun _ => false) :=
  ⟨C10_probe_total.1 "timeout" (.resp 200 ""),
   C10_probe_total.2.1 403 "" "reset" (Or.inl rfl),
   C10_probe_total.2.2 "0002" (fun _ => false) [] (by decide)⟩
